import Mathlib

/-!
Verification of the Velvet ORM query core against its specification.

Strings are modelled as lists of characters (`Str`); JavaScript string
operations (trim, toLowerCase, split, join, template concatenation) become
the corresponding list operations.  Fallible TypeScript code (functions that
throw `QueryException`) is modelled with `Except ErrCode`.  JavaScript
numbers handed to `validateLimit` / `validateOffset` are modelled as `Rat`
(`Number.isInteger` becomes "denominator = 1").
-/

deriving instance DecidableEq for Except

namespace Velvet

/-- JavaScript strings, modelled as their character sequences. -/
abbrev Str := List Char

/-- Embed a Lean string literal into the model. -/
def str (s : String) : Str := s.data

/-- Error codes carried by `QueryException` (src/exceptions). -/
inductive ErrCode where
  | INVALID_IDENTIFIER
  | IDENTIFIER_TOO_LONG
  | INVALID_QUALIFIED_NAME
  | INVALID_IDENTIFIER_PATTERN
  | INVALID_SORT_DIRECTION
  | INVALID_LIMIT
  | LIMIT_TOO_LARGE
  | INVALID_OFFSET
  deriving DecidableEq, Repr

/-! ## QuerySanitizer (src/packages/core/src/support/QuerySanitizer.ts) -/

/-- Whitespace characters removed by JavaScript `String.prototype.trim`
(ASCII subset, which is all that can interact with the identifier pattern). -/
def isWs (c : Char) : Bool := c = ' ' || c = '\t' || c = '\n' || c = '\r'

/-- Model of JavaScript `trim`: drop whitespace from both ends. -/
def jsTrim (s : Str) : Str :=
  ((s.dropWhile isWs).reverse.dropWhile isWs).reverse

/-- First character class of the identifier regex `[a-zA-Z_]`. -/
def isIdentStart (c : Char) : Bool := c.isAlpha || c = '_'

/-- Later character class of the identifier regex `[a-zA-Z0-9_]`. -/
def isIdentChar (c : Char) : Bool := c.isAlphanum || c = '_'

/-- `IDENTIFIER_PATTERN.test`: the regex `[a-zA-Z_][a-zA-Z0-9_]*` anchored
at both ends. -/
def identPattern : Str → Bool
  | [] => false
  | c :: cs => isIdentStart c && cs.all isIdentChar

/-- `QuerySanitizer.sanitizeSingleIdentifier`: `*` passes as-is, otherwise
the pattern must match (the reserved-keyword branch in the source is a
no-op). -/
def sanitizeSingleIdentifier (s : Str) : Except ErrCode Str :=
  if s = ['*'] then .ok s
  else if identPattern s then .ok s
  else .error .INVALID_IDENTIFIER_PATTERN

/-- Split on `.`, mirroring JavaScript `String.prototype.split('.')`. -/
def splitDot : Str → List Str
  | [] => [[]]
  | c :: cs =>
    if c = '.' then [] :: splitDot cs
    else
      match splitDot cs with
      | [] => [[c]]
      | p :: ps => (c :: p) :: ps

/-- Join a list of fragments with a separator, mirroring `Array.join`. -/
def joinWith (sep : Str) : List Str → Str
  | [] => []
  | [x] => x
  | x :: y :: t => x ++ sep ++ joinWith sep (y :: t)

/-- Sanitize each dot-separated part in order, failing on the first bad one. -/
def sanitizeParts : List Str → Except ErrCode (List Str)
  | [] => .ok []
  | p :: ps =>
    match sanitizeSingleIdentifier p with
    | .error e => .error e
    | .ok q =>
      match sanitizeParts ps with
      | .error e => .error e
      | .ok qs => .ok (q :: qs)

/-- `QuerySanitizer.MAX_IDENTIFIER_LENGTH`. -/
def MAX_IDENTIFIER_LENGTH : Nat := 64

/-- `QuerySanitizer.sanitizeIdentifier`: reject empty / blank input, trim,
enforce the length bound, then validate either the single identifier or both
parts of a `table.column` qualified name. -/
def sanitizeIdentifier (s : Str) : Except ErrCode Str :=
  if s = [] ∨ jsTrim s = [] then .error .INVALID_IDENTIFIER
  else if MAX_IDENTIFIER_LENGTH < (jsTrim s).length then .error .IDENTIFIER_TOO_LONG
  else if '.' ∈ jsTrim s then
    if 2 < (splitDot (jsTrim s)).length then .error .INVALID_QUALIFIED_NAME
    else
      match sanitizeParts (splitDot (jsTrim s)) with
      | .error e => .error e
      | .ok qs => .ok (joinWith ['.'] qs)
  else sanitizeSingleIdentifier (jsTrim s)

/-- Model of JavaScript `toUpperCase` on ASCII strings. -/
def toUpperStr (s : Str) : Str := s.map Char.toUpper

/-- Model of JavaScript `toLowerCase` on ASCII strings. -/
def toLowerStr (s : Str) : Str := s.map Char.toLower

/-- `QuerySanitizer.sanitizeDirection`: case-insensitive `asc`/`desc`,
normalized to uppercase. -/
def sanitizeDirection (d : Str) : Except ErrCode Str :=
  if toUpperStr d = str "ASC" ∨ toUpperStr d = str "DESC" then .ok (toUpperStr d)
  else .error .INVALID_SORT_DIRECTION

/-- `Number.isInteger` on the rational model of JavaScript numbers. -/
def isIntQ (q : Rat) : Prop := q.den = 1

instance (q : Rat) : Decidable (isIntQ q) := by unfold isIntQ; infer_instance

/-- `QuerySanitizer.validateLimit`: non-negative integer required
(`INVALID_LIMIT`), then the 1,000,000 ceiling (`LIMIT_TOO_LARGE`). -/
def validateLimit (q : Rat) : Except ErrCode Rat :=
  if ¬ isIntQ q ∨ q < 0 then .error .INVALID_LIMIT
  else if 1000000 < q then .error .LIMIT_TOO_LARGE
  else .ok q

/-- `QuerySanitizer.validateOffset`: non-negative integer required
(`INVALID_OFFSET`); the source has no upper bound check. -/
def validateOffset (q : Rat) : Except ErrCode Rat :=
  if ¬ isIntQ q ∨ q < 0 then .error .INVALID_OFFSET
  else .ok q

/-! ## Relation foreign-key defaulting
(src/packages/core/src/relations/HasMany.ts, HasOne.ts) -/

/-- `HasMany.guessForeignKey` / `HasOne.guessForeignKey`:
`parentStatic.name.toLowerCase() + "_id"`. -/
def guessForeignKey (parentName : Str) : Str :=
  toLowerStr parentName ++ str "_id"

/-- The foreign key a HasMany/HasOne relation ends up with: the explicit one
if given, otherwise the guessed one (`foreignKey || this.guessForeignKey()`). -/
def relationForeignKey (explicitFK : Option Str) (parentName : Str) : Str :=
  explicitFK.getD (guessForeignKey parentName)

/-- Lowercase only the tail of a word used by `snakeCaseSpec`. -/
def snakeTail : Str → Str
  | [] => []
  | c :: cs => if c.isUpper then '_' :: c.toLower :: snakeTail cs else c :: snakeTail cs

/-- Modelled from the spec words: `snake_case(parentTypeName)` — lower-case
the name, inserting an underscore before each interior uppercase letter
(so `BlogPost` becomes `blog_post`).  Used only to compare the spec against
the source behaviour. -/
def snakeCaseSpec : Str → Str
  | [] => []
  | c :: cs => c.toLower :: snakeTail cs

/-! ## Query data model (src/packages/core/src/types/query.ts) -/

/-- Runtime values that can appear as query bindings. -/
inductive Val where
  | int (i : Int)
  | strV (s : Str)
  | boolV (b : Bool)
  | nullV
  deriving DecidableEq, Repr

/-- `LogicalOperator`. -/
inductive BoolOp where
  | and
  | or
  deriving DecidableEq, Repr

/-- SQL text of a logical operator. -/
def BoolOp.render : BoolOp → Str
  | .and => str "AND"
  | .or => str "OR"

/-- `ComparisonOperator` (the string-literal union from types/query.ts). -/
inductive CompOp where
  | eq
  | neq
  | ltgt
  | lt
  | le
  | gt
  | ge
  | like
  | notLike
  | ilike
  | notIlike
  | inOp
  | notIn
  | isOp
  | isNot
  deriving DecidableEq, Repr

/-- The literal text of each comparison operator. -/
def CompOp.render : CompOp → Str
  | .eq => str "="
  | .neq => str "!="
  | .ltgt => str "<>"
  | .lt => str "<"
  | .le => str "<="
  | .gt => str ">"
  | .ge => str ">="
  | .like => str "LIKE"
  | .notLike => str "NOT LIKE"
  | .ilike => str "ILIKE"
  | .notIlike => str "NOT ILIKE"
  | .inOp => str "IN"
  | .notIn => str "NOT IN"
  | .isOp => str "IS"
  | .isNot => str "IS NOT"

/-- `WhereClause` tagged union (`raw` keeps its SQL text in the `value`
field of the source record; `exists` is declared in the type but hits the
compiler's default branch). -/
inductive WhereClause where
  | basic (column : Str) (op : CompOp) (value : Val) (boolOp : BoolOp) (notFlag : Bool)
  | inW (column : Str) (values : List Val) (boolOp : BoolOp) (notFlag : Bool)
  | nullW (column : Str) (boolOp : BoolOp) (notFlag : Bool)
  | between (column : Str) (vlo vhi : Val) (boolOp : BoolOp) (notFlag : Bool)
  | raw (sqlFrag : Str) (values : List Val) (boolOp : BoolOp)
  | existsW (boolOp : BoolOp)
  deriving DecidableEq, Repr

/-- The `boolean` field of a where clause. -/
def WhereClause.boolean : WhereClause → BoolOp
  | .basic _ _ _ b _ => b
  | .inW _ _ b _ => b
  | .nullW _ b _ => b
  | .between _ _ _ b _ => b
  | .raw _ _ b => b
  | .existsW b => b

/-- `JoinType`. -/
inductive JoinType where
  | inner
  | left
  | right
  | full
  | cross
  deriving DecidableEq, Repr

/-- SQL text of a join type. -/
def JoinType.render : JoinType → Str
  | .inner => str "INNER"
  | .left => str "LEFT"
  | .right => str "RIGHT"
  | .full => str "FULL"
  | .cross => str "CROSS"

/-- `JoinClause`. -/
structure JoinClause where
  jtype : JoinType
  table : Str
  first : Str
  op : CompOp
  second : Str
  deriving DecidableEq, Repr

/-- `OrderByClause` (the direction is a raw caller string, validated by
`sanitizeDirection` at compile time). -/
structure OrderByClause where
  column : Str
  direction : Str
  deriving DecidableEq, Repr

/-- The argument record of `Grammar.compileSelect`.  Empty lists model the
`undefined` / length-0 cases of the source, which it treats identically. -/
structure SelectComponents where
  table : Str
  columns : List Str := []
  wheres : List WhereClause := []
  joins : List JoinClause := []
  orders : List OrderByClause := []
  limit : Option Rat := none
  offset : Option Rat := none
  distinct : Bool := false
  deriving DecidableEq, Repr

/-- `CompiledQuery`. -/
structure CompiledQuery where
  sql : Str
  bindings : List Val
  deriving DecidableEq, Repr

/-! ## SqliteGrammar (src/packages/core/src/query/grammar/SqliteGrammar.ts
and the shared pieces of Grammar.ts) -/

/-- `SqliteGrammar.wrapSingle`: quote a single already-sanitized part,
leaving `*` and anything already starting with a double quote alone. -/
def wrapSingle (v : Str) : Str :=
  if v = ['*'] ∨ v.head? = some '"' then v else '"' :: (v ++ ['"'])

/-- The quoting `wrap` applies to a sanitized identifier: each dot part
wrapped in double quotes (leaving `*` parts bare). -/
def quoteIdent (s : Str) : Str :=
  if '.' ∈ s then joinWith ['.'] ((splitDot s).map wrapSingle) else wrapSingle s

/-- `SqliteGrammar.wrap`: `*` and strings that already start with `"` are
returned verbatim; everything else is sanitized and then each dot part is
quoted. -/
def wrap (v : Str) : Except ErrCode Str :=
  if v = ['*'] ∨ v.head? = some '"' then .ok v
  else
    match sanitizeIdentifier v with
    | .error e => .error e
    | .ok s =>
      if '.' ∈ s then .ok (joinWith ['.'] ((splitDot s).map wrapSingle))
      else .ok (wrapSingle s)

/-- `Grammar.wrapArray`: wrap every column, first failure wins. -/
def wrapAll : List Str → Except ErrCode (List Str)
  | [] => .ok []
  | v :: vs =>
    match wrap v with
    | .error e => .error e
    | .ok w =>
      match wrapAll vs with
      | .error e => .error e
      | .ok ws => .ok (w :: ws)

/-- The SQLite parameter placeholder; `getParameterPlaceholder` ignores the
position argument. -/
def placeholder : Str := ['?']

/-- The `operator` local of `compileNullWhere`. -/
def nullOpRender (nf : Bool) : Str :=
  if nf then str "IS NOT NULL" else str "IS NULL"

/-- Compile one WHERE clause given its rendered prefix, returning the SQL
fragment and the bindings it appends (in push order). -/
def compileWhereFrag (w : WhereClause) (pfx : Str) : Except ErrCode (Str × List Val) :=
  match w with
  | .basic col op v _ nf =>
    match wrap col with
    | .error e => .error e
    | .ok wc =>
      .ok (pfx ++ str " " ++ (if nf then str "NOT " else []) ++ wc ++ str " " ++
             op.render ++ str " " ++ placeholder, [v])
  | .inW col vals _ nf =>
    match wrap col with
    | .error e => .error e
    | .ok wc =>
      .ok (pfx ++ str " " ++ wc ++ str " " ++ (if nf then str "NOT " else []) ++
             str "IN (" ++ joinWith (str ", ") (vals.map fun _ => placeholder) ++ str ")",
           vals)
  | .nullW col _ nf =>
    match wrap col with
    | .error e => .error e
    | .ok wc =>
      .ok (pfx ++ str " " ++ wc ++ str " " ++ nullOpRender nf, [])
  | .between col lo hi _ nf =>
    match wrap col with
    | .error e => .error e
    | .ok wc =>
      .ok (pfx ++ str " " ++ wc ++ str " " ++ (if nf then str "NOT " else []) ++
             str "BETWEEN " ++ placeholder ++ str " AND " ++ placeholder, [lo, hi])
  | .raw sqlFrag vals _ => .ok (pfx ++ str " " ++ sqlFrag, vals)
  | .existsW _ => .ok ([], [])

/-- `Grammar.compileWheres`, fragment list form: the first clause gets the
`WHERE` prefix, each later clause its own `boolean`; bindings accumulate in
render order. -/
def compileWhereFrags : List WhereClause → Bool → Except ErrCode (List Str × List Val)
  | [], _ => .ok ([], [])
  | w :: ws, first =>
    match compileWhereFrag w (if first then str "WHERE" else w.boolean.render) with
    | .error e => .error e
    | .ok (f, bs) =>
      match compileWhereFrags ws false with
      | .error e => .error e
      | .ok (fs, rest) => .ok (f :: fs, bs ++ rest)

/-- `Grammar.compileWheres`: fragments joined with a single space. -/
def compileWheres (ws : List WhereClause) : Except ErrCode (Str × List Val) :=
  match compileWhereFrags ws true with
  | .error e => .error e
  | .ok (fs, bs) => .ok (joinWith (str " ") fs, bs)

/-- One `ORDER BY` item: direction sanitized, column wrapped. -/
def compileOrderFrags : List OrderByClause → Except ErrCode (List Str)
  | [] => .ok []
  | o :: os =>
    match sanitizeDirection o.direction with
    | .error e => .error e
    | .ok d =>
      match wrap o.column with
      | .error e => .error e
      | .ok wc =>
        match compileOrderFrags os with
        | .error e => .error e
        | .ok fs => .ok ((wc ++ str " " ++ d) :: fs)

/-- `Grammar.compileOrders`. -/
def compileOrders (os : List OrderByClause) : Except ErrCode Str :=
  match compileOrderFrags os with
  | .error e => .error e
  | .ok fs => .ok (str "ORDER BY " ++ joinWith (str ", ") fs)

/-- One JOIN fragment. -/
def compileJoinFrags : List JoinClause → Except ErrCode (List Str)
  | [] => .ok []
  | j :: js =>
    match wrap j.table with
    | .error e => .error e
    | .ok wt =>
      match wrap j.first with
      | .error e => .error e
      | .ok wf =>
        match wrap j.second with
        | .error e => .error e
        | .ok ws2 =>
          match compileJoinFrags js with
          | .error e => .error e
          | .ok fs =>
            .ok ((j.jtype.render ++ str " JOIN " ++ wt ++ str " ON " ++ wf ++ str " " ++
                    j.op.render ++ str " " ++ ws2) :: fs)

/-- `Grammar.compileJoins`. -/
def compileJoins (js : List JoinClause) : Except ErrCode Str :=
  match compileJoinFrags js with
  | .error e => .error e
  | .ok fs => .ok (joinWith (str " ") fs)

/-- One decimal digit character. -/
def digitOf (n : Nat) : Char :=
  match n % 10 with
  | 0 => '0'
  | 1 => '1'
  | 2 => '2'
  | 3 => '3'
  | 4 => '4'
  | 5 => '5'
  | 6 => '6'
  | 7 => '7'
  | 8 => '8'
  | _ => '9'

/-- Decimal rendering, fuelled so that it stays kernel-computable; the fuel
argument strictly bounds the recursion depth and `natChars` always supplies
enough of it. -/
def natCharsAux : Nat → Nat → Str
  | 0, _ => []
  | fuel + 1, n =>
    if n < 10 then [digitOf n]
    else natCharsAux fuel (n / 10) ++ [digitOf n]

/-- Decimal rendering of a natural number (JavaScript template-literal
interpolation of a non-negative integer). -/
def natChars (n : Nat) : Str := natCharsAux (n + 1) n

/-- Decimal rendering of a validated (non-negative integer) limit/offset. -/
def qChars (q : Rat) : Str := natChars q.num.toNat

/-- The `SELECT [DISTINCT] cols` part. -/
def selectHead (c : SelectComponents) : Except ErrCode Str :=
  match (if c.columns = [] then .ok (str "*")
         else
           match wrapAll c.columns with
           | .error e => .error e
           | .ok ws => .ok (joinWith (str ", ") ws) : Except ErrCode Str) with
  | .error e => .error e
  | .ok cols => .ok (str "SELECT " ++ (if c.distinct then str "DISTINCT " else []) ++ cols)

/-- JOIN parts pushed only when joins are present. -/
def joinsParts (c : SelectComponents) : Except ErrCode (List Str) :=
  if c.joins = [] then .ok []
  else
    match compileJoins c.joins with
    | .error e => .error e
    | .ok s => .ok [s]

/-- WHERE part pushed only when clauses are present, plus its bindings. -/
def wheresParts (c : SelectComponents) : Except ErrCode (List Str × List Val) :=
  if c.wheres = [] then .ok ([], [])
  else
    match compileWheres c.wheres with
    | .error e => .error e
    | .ok (s, bs) => .ok ([s], bs)

/-- ORDER BY part pushed only when orders are present. -/
def ordersParts (c : SelectComponents) : Except ErrCode (List Str) :=
  if c.orders = [] then .ok []
  else
    match compileOrders c.orders with
    | .error e => .error e
    | .ok s => .ok [s]

/-- LIMIT part, validated. -/
def limitParts (c : SelectComponents) : Except ErrCode (List Str) :=
  match c.limit with
  | none => .ok []
  | some q =>
    match validateLimit q with
    | .error e => .error e
    | .ok v => .ok [str "LIMIT " ++ qChars v]

/-- OFFSET part, validated. -/
def offsetParts (c : SelectComponents) : Except ErrCode (List Str) :=
  match c.offset with
  | none => .ok []
  | some q =>
    match validateOffset q with
    | .error e => .error e
    | .ok v => .ok [str "OFFSET " ++ qChars v]

/-- `SqliteGrammar.compileSelect`: assemble the pushed parts in source
order and join them with single spaces; bindings come solely from the WHERE
renderer. -/
def compileSelect (c : SelectComponents) : Except ErrCode CompiledQuery :=
  match selectHead c with
  | .error e => .error e
  | .ok selPart =>
    match wrap c.table with
    | .error e => .error e
    | .ok wt =>
      match joinsParts c with
      | .error e => .error e
      | .ok jps =>
        match wheresParts c with
        | .error e => .error e
        | .ok (wps, bs) =>
          match ordersParts c with
          | .error e => .error e
          | .ok ops =>
            match limitParts c with
            | .error e => .error e
            | .ok lps =>
              match offsetParts c with
              | .error e => .error e
              | .ok fps =>
                .ok { sql := joinWith (str " ")
                        ([selPart, str "FROM " ++ wt] ++ jps ++ wps ++ ops ++ lps ++ fps),
                      bindings := bs }

/-! ## Builder (src/packages/core/src/Builder.ts) -/

/-- The mutable state of a `Builder` instance. -/
structure BuilderState where
  tableName : Str
  columns : List Str := []
  wheres : List WhereClause := []
  joins : List JoinClause := []
  orders : List OrderByClause := []
  limitValue : Option Rat := none
  offsetValue : Option Rat := none
  distinctFlag : Bool := false
  eagerLoad : List Str := []
  softDeleteColumn : Option Str := none
  includeTrashed : Bool := false
  onlyTrashedFlag : Bool := false
  deriving DecidableEq, Repr

/-- The implicit soft-delete clause `Builder.toSql` appends after the
caller's wheres. -/
def builderSoftDeleteWheres (b : BuilderState) : List WhereClause :=
  match b.softDeleteColumn with
  | none => []
  | some c =>
    if b.onlyTrashedFlag then [.nullW c .and true]
    else if ¬ b.includeTrashed then [.nullW c .and false]
    else []

/-- The where list `Builder.toSql` hands to the grammar. -/
def toSqlWheres (b : BuilderState) : List WhereClause :=
  b.wheres ++ builderSoftDeleteWheres b

/-- `Builder.toSql`: delegate to the grammar with the builder's fields. -/
def toSql (b : BuilderState) : Except ErrCode CompiledQuery :=
  compileSelect
    { table := b.tableName
      columns := b.columns
      wheres := toSqlWheres b
      joins := b.joins
      orders := b.orders
      limit := b.limitValue
      offset := b.offsetValue
      distinct := b.distinctFlag }

/-- `Builder.limit`: set the limit value. -/
def builderLimit (b : BuilderState) (v : Rat) : BuilderState :=
  { b with limitValue := some v }

/-- The state effect of `Builder.first()`, which runs `this.limit(1)`
before executing `get()` (and never restores the old limit). -/
def builderFirst (b : BuilderState) : BuilderState :=
  builderLimit b 1

/-- `Builder.whereInColumn`, used by relation eager loading for the batched
`foreign_key IN (...)` query. -/
def eagerLoadWhere (fk : Str) (ids : List Val) : WhereClause :=
  .inW fk ids .and false

/-! ## QueryCompiler (src/packages/core/src/query/QueryCompiler.ts)

The compilation cache is a plain `Map` keyed by `JSON.stringify` of the
canonical sanitized components; the stringify of that canonical record is
modelled by the record itself (an injective key).  Because the source caches
and returns the same object (the bindings array is shared between the cache
entry and every caller), `CompiledQuery` values handed out by the compiler
are modelled as references into an explicit heap of binding arrays. -/

/-- `SoftDeleteConfig`. -/
structure SoftDeleteConfig where
  column : Option Str
  includeTrashed : Bool
  onlyTrashed : Bool
  deriving DecidableEq, Repr

/-- Sanitize a where clause: raw clauses (and the column-less `exists`)
pass through untouched, every other clause has its column sanitized. -/
def sanitizeWhere (w : WhereClause) : Except ErrCode WhereClause :=
  match w with
  | .basic col op v bo nf =>
    match sanitizeIdentifier col with
    | .error e => .error e
    | .ok c2 => .ok (.basic c2 op v bo nf)
  | .inW col vals bo nf =>
    match sanitizeIdentifier col with
    | .error e => .error e
    | .ok c2 => .ok (.inW c2 vals bo nf)
  | .nullW col bo nf =>
    match sanitizeIdentifier col with
    | .error e => .error e
    | .ok c2 => .ok (.nullW c2 bo nf)
  | .between col lo hi bo nf =>
    match sanitizeIdentifier col with
    | .error e => .error e
    | .ok c2 => .ok (.between c2 lo hi bo nf)
  | .raw f vs bo => .ok (.raw f vs bo)
  | .existsW bo => .ok (.existsW bo)

/-- Sanitize a list of where clauses in order. -/
def sanitizeWheresList : List WhereClause → Except ErrCode (List WhereClause)
  | [] => .ok []
  | w :: ws =>
    match sanitizeWhere w with
    | .error e => .error e
    | .ok w2 =>
      match sanitizeWheresList ws with
      | .error e => .error e
      | .ok ws2 => .ok (w2 :: ws2)

/-- `QuerySanitizer.sanitizeIdentifiers` on a column list. -/
def sanitizeColumnsList : List Str → Except ErrCode (List Str)
  | [] => .ok []
  | c :: cs =>
    match sanitizeIdentifier c with
    | .error e => .error e
    | .ok c2 =>
      match sanitizeColumnsList cs with
      | .error e => .error e
      | .ok cs2 => .ok (c2 :: cs2)

/-- Sanitize join clauses (table and both columns). -/
def sanitizeJoinsList : List JoinClause → Except ErrCode (List JoinClause)
  | [] => .ok []
  | j :: js =>
    match sanitizeIdentifier j.table with
    | .error e => .error e
    | .ok t2 =>
      match sanitizeIdentifier j.first with
      | .error e => .error e
      | .ok f2 =>
        match sanitizeIdentifier j.second with
        | .error e => .error e
        | .ok s2 =>
          match sanitizeJoinsList js with
          | .error e => .error e
          | .ok js2 => .ok ({ j with table := t2, first := f2, second := s2 } :: js2)

/-- Sanitize order clauses (column only; direction is checked later). -/
def sanitizeOrdersList : List OrderByClause → Except ErrCode (List OrderByClause)
  | [] => .ok []
  | o :: os =>
    match sanitizeIdentifier o.column with
    | .error e => .error e
    | .ok c2 =>
      match sanitizeOrdersList os with
      | .error e => .error e
      | .ok os2 => .ok ({ o with column := c2 } :: os2)

/-- `QueryCompiler.sanitizeComponents`. -/
def sanitizeComponents (c : SelectComponents) : Except ErrCode SelectComponents :=
  match sanitizeIdentifier c.table with
  | .error e => .error e
  | .ok t2 =>
    match sanitizeColumnsList c.columns with
    | .error e => .error e
    | .ok cols2 =>
      match sanitizeJoinsList c.joins with
      | .error e => .error e
      | .ok js2 =>
        match sanitizeOrdersList c.orders with
        | .error e => .error e
        | .ok os2 =>
          match sanitizeWheresList c.wheres with
          | .error e => .error e
          | .ok ws2 =>
            .ok { c with table := t2, columns := cols2, joins := js2, orders := os2,
                         wheres := ws2 }

/-- `QueryCompiler.sanitizeSoftDelete` on a present config. -/
def sanitizeSoftDeleteCfg (sd : SoftDeleteConfig) : Except ErrCode SoftDeleteConfig :=
  match sd.column with
  | none => .ok { sd with column := none }
  | some c =>
    match sanitizeIdentifier c with
    | .error e => .error e
    | .ok c2 => .ok { sd with column := some c2 }

/-- The optional config, sanitized. -/
def sanitizeSoftDeleteOpt : Option SoftDeleteConfig → Except ErrCode (Option SoftDeleteConfig)
  | none => .ok none
  | some cfg =>
    match sanitizeSoftDeleteCfg cfg with
    | .error e => .error e
    | .ok cfg2 => .ok (some cfg2)

/-- The implicit where clause `QueryCompiler.compileSelect` appends for a
soft-deleting entity. -/
def softDeleteExtraWheres : Option SoftDeleteConfig → List WhereClause
  | none => []
  | some cfg =>
    match cfg.column with
    | none => []
    | some c =>
      if cfg.onlyTrashed then [.nullW c .and true]
      else if ¬ cfg.includeTrashed then [.nullW c .and false]
      else []

/-- The cache key: the canonical sanitized components plus soft-delete
config (`JSON.stringify` of the canonical record, modelled injectively by
the record itself). -/
abbrev QCKey := SelectComponents × Option SoftDeleteConfig

/-- A `CompiledQuery` as handed out by the compiler: the sql string plus a
reference to the shared bindings array on the heap. -/
structure CompiledRef where
  sql : Str
  bref : Nat
  deriving DecidableEq, Repr

/-- The compiler's private `Map` cache plus the heap of binding arrays. -/
structure QCState where
  entries : List (QCKey × CompiledRef) := []
  heap : List (List Val) := []
  deriving DecidableEq, Repr

/-- A fresh compiler (empty cache). -/
def qcEmpty : QCState := {}

/-- `Map.get` on the cache. -/
def qcLookup (st : QCState) (k : QCKey) : Option CompiledRef :=
  (st.entries.find? (fun e => decide (e.1 = k))).map Prod.snd

/-- The cache-miss path of `QueryCompiler.compileSelect`: append the
soft-delete clause, compile through the grammar, store the result and
return that same stored object (the bindings array is shared between the
cache entry and the caller). -/
def qcMissCompile (st : QCState) (sc : SelectComponents)
    (ssd : Option SoftDeleteConfig) : Except ErrCode (CompiledRef × QCState) :=
  match compileSelect { sc with wheres := sc.wheres ++ softDeleteExtraWheres ssd } with
  | .error e => .error e
  | .ok q =>
    .ok ({ sql := q.sql, bref := st.heap.length },
         { entries := st.entries ++ [((sc, ssd), { sql := q.sql, bref := st.heap.length })]
           heap := st.heap ++ [q.bindings] })

/-- Cache probe of `QueryCompiler.compileSelect`: on a hit the cached
object itself is returned and the state is untouched. -/
def qcWithKey (st : QCState) (sc : SelectComponents)
    (ssd : Option SoftDeleteConfig) : Except ErrCode (CompiledRef × QCState) :=
  match qcLookup st (sc, ssd) with
  | some r => .ok (r, st)
  | none => qcMissCompile st sc ssd

/-- `QueryCompiler.compileSelect`: sanitize, then probe the cache. -/
def qcCompileSelect (st : QCState) (c : SelectComponents)
    (sd : Option SoftDeleteConfig) : Except ErrCode (CompiledRef × QCState) :=
  match sanitizeComponents c with
  | .error e => .error e
  | .ok sc =>
    match sanitizeSoftDeleteOpt sd with
    | .error e => .error e
    | .ok ssd => qcWithKey st sc ssd

/-- A caller mutating, in place, the bindings array of a result it was
handed (e.g. `result.bindings[0] = x` or `push`). -/
def heapWrite (st : QCState) (i : Nat) (v : List Val) : QCState :=
  { st with heap := st.heap.set i v }

/-- Reading the bindings array a `CompiledRef` points at. -/
def heapAt (st : QCState) (i : Nat) : List Val :=
  st.heap.getD i []

/-- Run one compile request for its state effect (a thrown sanitize error
leaves the cache untouched). -/
def qcStep (st : QCState) (r : SelectComponents × Option SoftDeleteConfig) : QCState :=
  match qcCompileSelect st r.1 r.2 with
  | .ok (_, st2) => st2
  | .error _ => st

/-- Run a sequence of compile requests. -/
def qcRun (st : QCState) (rs : List (SelectComponents × Option SoftDeleteConfig)) : QCState :=
  rs.foldl qcStep st

/-- Number of entries in the compiler's cache. -/
def qcSize (st : QCState) : Nat := st.entries.length

/-- The cache keys currently stored. -/
def qcKeys (st : QCState) : List QCKey := st.entries.map Prod.fst

/-- A family of valid compile requests that differ only in a bound value,
giving pairwise-distinct cache keys. -/
def pumpComps (i : Int) : SelectComponents :=
  { table := str "t", wheres := [.basic (str "v") .eq (.int i) .and false] }

/-- The request (no soft-delete config) for `pumpComps`. -/
def pumpReq (i : Int) : SelectComponents × Option SoftDeleteConfig := (pumpComps i, none)

/-- The cache key `pumpComps i` is stored under. -/
def pkey (i : Int) : QCKey := (pumpComps i, none)

/-- The SQL every `pumpComps` compiles to. -/
def pumpSql : Str := str "SELECT * FROM \"t\" WHERE \"v\" = ?"

/-- The compiled reference a `pumpComps` miss stores and returns. -/
def pumpRef (st : QCState) : CompiledRef := { sql := pumpSql, bref := st.heap.length }

/-- The first `n` integers, used to index distinct pump requests. -/
def intRange (n : Nat) : List Int := (List.range n).map Int.ofNat

/-! ## LRUCache (src/support/LRUCache.ts), the bounded cache that exists in
the repository but that `QueryCompiler.compileSelect` never consults. -/

/-- `LRUCache.set`: delete-if-present, append at the most-recent end, then
evict the oldest entry if over capacity. -/
def lruSet (maxSize : Nat) (es : List (Str × CompiledQuery)) (k : Str) (v : CompiledQuery) :
    List (Str × CompiledQuery) :=
  let cleaned := if (es.find? (fun e => decide (e.1 = k))).isSome
    then es.filter (fun e => decide (e.1 ≠ k)) else es
  let appended := cleaned ++ [(k, v)]
  if maxSize < appended.length then appended.tail else appended

/-! ## ConnectionPool (src/unnamed/part_001)

`acquire()` runs synchronously up to its first `await`: taking an idle
resource completes at once; when the size check passes the call suspends
inside `await this.create()` and only adds the new resource to `inUse`
after that resolves; a saturated call enqueues itself.  The cooperative
interleaving of those suspension points is made explicit: `startAcquire` is
the synchronous part of an `acquire()` call and `finishCreate` is the
resumption after the factory resolves.  `release` is fully synchronous. -/

/-- Pool state: resources are identified by the order of their creation. -/
structure PoolState where
  available : List Nat := []
  inUse : List Nat := []
  pending : Nat := 0
  creating : Nat := 0
  nextRes : Nat := 0
  maxR : Nat := 10
  deriving DecidableEq, Repr

/-- `Set.add` semantics for the `inUse` set. -/
def setAdd (l : List Nat) (r : Nat) : List Nat :=
  if r ∈ l then l else l ++ [r]

/-- The cooperative-scheduling events of the pool. -/
inductive PoolOp where
  | startAcquire
  | finishCreate
  | release (r : Nat)
  deriving DecidableEq, Repr

/-- One scheduling step of the pool. -/
def poolStep (s : PoolState) : PoolOp → PoolState
  | .startAcquire =>
    match s.available with
    | r :: rest => { s with available := rest, inUse := setAdd s.inUse r }
    | [] =>
      if s.inUse.length + s.available.length < s.maxR then
        { s with creating := s.creating + 1 }
      else
        { s with pending := s.pending + 1 }
  | .finishCreate =>
    if 0 < s.creating then
      { s with creating := s.creating - 1, inUse := setAdd s.inUse s.nextRes,
               nextRes := s.nextRes + 1 }
    else s
  | .release r =>
    if r ∈ s.inUse then
      if 0 < s.pending then
        { s with inUse := setAdd (s.inUse.erase r) r, pending := s.pending - 1 }
      else
        { s with inUse := s.inUse.erase r, available := s.available ++ [r] }
    else s

/-- Run a schedule of pool events. -/
def poolRun (s : PoolState) (ops : List PoolOp) : PoolState :=
  ops.foldl poolStep s

/-! ## Placeholder counting (spec: `countOccurrences(sql, placeholder)`) -/

/-- Number of `?` placeholders occurring in a SQL string. -/
def countQ (s : Str) : Nat := s.count '?'

/-- The identifier does not begin with a double quote, i.e. it does not
take `wrap`'s "already wrapped" bypass. -/
def noLeadQuote (s : Str) : Prop := s.head? ≠ some '"'

instance (s : Str) : Decidable (noLeadQuote s) := by
  unfold noLeadQuote
  infer_instance

/-- Per-clause side condition for placeholder parity: raw fragments carry
exactly one `?` per supplied binding, and columns of ordinary clauses do not
take the quote bypass. -/
def whereOkC (w : WhereClause) : Prop :=
  match w with
  | .basic col _ _ _ _ => noLeadQuote col
  | .inW col _ _ _ => noLeadQuote col
  | .nullW col _ _ => noLeadQuote col
  | .between col _ _ _ _ => noLeadQuote col
  | .raw f vals _ => countQ f = vals.length
  | .existsW _ => True

instance (w : WhereClause) : Decidable (whereOkC w) := by
  rcases w <;> (unfold whereOkC; infer_instance)

/-- Component-wide side condition: no identifier takes the quote bypass and
every raw clause is balanced. -/
def componentsOkC (c : SelectComponents) : Prop :=
  noLeadQuote c.table ∧
  (∀ col ∈ c.columns, noLeadQuote col) ∧
  (∀ j ∈ c.joins, noLeadQuote j.table ∧ noLeadQuote j.first ∧ noLeadQuote j.second) ∧
  (∀ o ∈ c.orders, noLeadQuote o.column) ∧
  (∀ w ∈ c.wheres, whereOkC w)

instance (c : SelectComponents) : Decidable (componentsOkC c) := by
  unfold componentsOkC
  infer_instance

/-! ## Trimming lemmas for the sanitizer -/

/-- The model trim is the Mathlib right-drop of the left-drop. -/
theorem jsTrim_eq (s : Str) :
    jsTrim s = List.rdropWhile isWs (List.dropWhile isWs s) := rfl

/-- Trimming is idempotent. -/
theorem jsTrim_idem (s : Str) : jsTrim (jsTrim s) = jsTrim s := by
  rw [jsTrim_eq]
  have h1 : List.dropWhile isWs (jsTrim s) = jsTrim s := by
    rcases hT : jsTrim s with _ | ⟨a, t⟩
    · simp
    · obtain ⟨r, hr⟩ := List.rdropWhile_prefix isWs (List.dropWhile isWs s)
      rw [← jsTrim_eq, hT, List.cons_append] at hr
      have h2 := List.dropWhile_idempotent isWs s
      rw [← hr, List.dropWhile_cons] at h2
      have hfalse : isWs a = false := by
        by_contra hb
        rw [Bool.not_eq_false] at hb
        rw [if_pos hb] at h2
        have hlen := congrArg List.length h2
        have hle : (List.dropWhile isWs (t ++ r)).length ≤ (t ++ r).length :=
          List.IsSuffix.length_le (List.dropWhile_suffix isWs)
        simp [List.length_append] at hlen hle
        omega
      rw [List.dropWhile_cons, hfalse]
      simp
  rw [h1, jsTrim_eq]
  exact List.rdropWhile_idempotent isWs (List.dropWhile isWs s)

/-- `sanitizeSingleIdentifier` returns its argument on success. -/
theorem sanitizeSingleIdentifier_ok {p q : Str}
    (h : sanitizeSingleIdentifier p = .ok q) : q = p := by
  unfold sanitizeSingleIdentifier at h
  split_ifs at h <;> simp_all

/-- `sanitizeParts` returns its argument on success. -/
theorem sanitizeParts_ok : ∀ {ps qs : List Str},
    sanitizeParts ps = .ok qs → qs = ps := by
  intro ps
  induction ps with
  | nil => intro qs h; simpa [sanitizeParts] using h.symm
  | cons p ps ih =>
    intro qs h
    unfold sanitizeParts at h
    rcases hp : sanitizeSingleIdentifier p with e | q <;> rw [hp] at h
    · cases h
    · rcases hps : sanitizeParts ps with e | qs2 <;> rw [hps] at h
      · cases h
      · cases h
        rw [sanitizeSingleIdentifier_ok hp, ih hps]

/-- Prepending a character to the head fragment commutes with joining. -/
theorem joinWith_cons_head (sep : Str) (c : Char) (p : Str) (ps : List Str) :
    joinWith sep ((c :: p) :: ps) = c :: joinWith sep (p :: ps) := by
  cases ps <;> simp [joinWith]

/-- Splitting never produces an empty fragment list. -/
theorem splitDot_ne_nil (l : Str) : splitDot l ≠ [] := by
  cases l with
  | nil => simp [splitDot]
  | cons c cs =>
    unfold splitDot
    split_ifs
    · simp
    · rcases hsp : splitDot cs with _ | ⟨p, ps⟩
      · show ([[c]] : List Str) ≠ []
        simp
      · show ((c :: p) :: ps : List Str) ≠ []
        simp

/-- `split('.')` then `join('.')` is the identity. -/
theorem joinDot_splitDot (l : Str) : joinWith ['.'] (splitDot l) = l := by
  induction l with
  | nil => simp [splitDot, joinWith]
  | cons c cs ih =>
    unfold splitDot
    by_cases hc : c = '.'
    · subst hc
      simp only [if_pos rfl]
      rcases hsp : splitDot cs with _ | ⟨p, ps⟩
      · exact absurd hsp (splitDot_ne_nil cs)
      · rw [hsp] at ih
        simpa [joinWith] using ih
    · simp only [if_neg hc]
      rcases hsp : splitDot cs with _ | ⟨p, ps⟩
      · exact absurd hsp (splitDot_ne_nil cs)
      · rw [hsp] at ih
        show joinWith ['.'] ((c :: p) :: ps) = c :: cs
        rw [joinWith_cons_head, ih]

/-- On success, `sanitizeIdentifier` returns exactly the trimmed input. -/
theorem sanitizeIdentifier_ok_eq {s r : Str}
    (h : sanitizeIdentifier s = .ok r) : r = jsTrim s := by
  unfold sanitizeIdentifier at h
  by_cases h1 : s = [] ∨ jsTrim s = []
  · rw [if_pos h1] at h; cases h
  rw [if_neg h1] at h
  by_cases h2 : MAX_IDENTIFIER_LENGTH < (jsTrim s).length
  · rw [if_pos h2] at h; cases h
  rw [if_neg h2] at h
  by_cases h3 : '.' ∈ jsTrim s
  · rw [if_pos h3] at h
    by_cases h4 : 2 < (splitDot (jsTrim s)).length
    · rw [if_pos h4] at h; cases h
    rw [if_neg h4] at h
    rcases hps : sanitizeParts (splitDot (jsTrim s)) with e | qs <;> rw [hps] at h
    · cases h
    · cases h
      rw [sanitizeParts_ok hps, joinDot_splitDot]
  · rw [if_neg h3] at h
    exact sanitizeSingleIdentifier_ok h

/-- Sanitizing an already-trimmed string equals sanitizing the original. -/
theorem sanitizeIdentifier_trim_eq (s : Str) :
    sanitizeIdentifier (jsTrim s) = sanitizeIdentifier s := by
  unfold sanitizeIdentifier
  rw [jsTrim_idem]
  rcases eq_or_ne (jsTrim s) [] with h | h
  · simp [h]
  · have h1 : ¬(jsTrim s = [] ∨ jsTrim s = []) := by simp [h]
    have h2 : ¬(s = [] ∨ jsTrim s = []) := by
      rintro (rfl | hx)
      · exact h rfl
      · exact h hx
    rw [if_neg h1, if_neg h2]

/-! ## Claim C9 -/

/-- C9: `sanitizeIdentifier` trims before validating — whenever the trimmed
form of an input is accepted by the sanitizer, the original (whitespace
padded) input is accepted too and the result is exactly the trimmed form. -/
theorem sanitize_identifier_trims (s r : Str)
    (h : sanitizeIdentifier (jsTrim s) = .ok r) :
    sanitizeIdentifier s = .ok r ∧ r = jsTrim s := by
  refine ⟨?_, ?_⟩
  · rw [← sanitizeIdentifier_trim_eq]
    exact h
  · have h2 := sanitizeIdentifier_ok_eq h
    rwa [jsTrim_idem] at h2

/-- Witness for C9 at the padded identifier `"  users  "`. -/
theorem sanitize_identifier_trims_witness :
    sanitizeIdentifier (str "  users  ") = .ok (str "users") ∧
    str "users" = jsTrim (str "  users  ") :=
  sanitize_identifier_trims (str "  users  ") (str "users") (by decide)

/-! ## Claim C7 -/

/-- C7 counterexample: an integer limit just above the ceiling is rejected
with code `LIMIT_TOO_LARGE`, not `INVALID_LIMIT` as the claim states, and
`validateOffset` accepts integers far beyond any ceiling. -/
theorem validate_limit_offset_cex :
    validateLimit 1000001 = .error .LIMIT_TOO_LARGE ∧
    validateLimit 1000001 ≠ .error .INVALID_LIMIT ∧
    validateOffset 123456789 = .ok 123456789 := by
  decide

/-- C7 amended: `validateLimit` accepts exactly the non-negative integers
up to 1,000,000, failing with `INVALID_LIMIT` on non-integers and negatives
but with `LIMIT_TOO_LARGE` above the ceiling; `validateOffset` accepts all
non-negative integers (it has no ceiling), failing with `INVALID_OFFSET`
otherwise; accepted values are returned unchanged. -/
theorem validate_limit_offset_spec (q : Rat) :
    (validateLimit q = .ok q ↔ isIntQ q ∧ 0 ≤ q ∧ q ≤ 1000000) ∧
    (¬ (isIntQ q ∧ 0 ≤ q) → validateLimit q = .error .INVALID_LIMIT) ∧
    (isIntQ q → 0 ≤ q → 1000000 < q → validateLimit q = .error .LIMIT_TOO_LARGE) ∧
    (validateOffset q = .ok q ↔ isIntQ q ∧ 0 ≤ q) ∧
    (¬ (isIntQ q ∧ 0 ≤ q) → validateOffset q = .error .INVALID_OFFSET) := by
  refine ⟨?_, ?_, ?_, ?_, ?_⟩
  · unfold validateLimit
    split_ifs with h1 h2
    · constructor
      · intro hx
        cases hx
      · rintro ⟨hi, h0, _⟩
        rcases h1 with h | h
        · exact absurd hi h
        · exact absurd h0 (not_le.mpr h)
    · constructor
      · intro hx
        cases hx
      · rintro ⟨_, _, hle⟩
        exact absurd hle (not_le.mpr h2)
    · push_neg at h1
      exact ⟨fun _ => ⟨h1.1, h1.2, not_lt.mp h2⟩, fun _ => rfl⟩
  · intro h
    unfold validateLimit
    rw [if_pos]
    rcases not_and_or.mp h with h | h
    · exact Or.inl h
    · exact Or.inr (not_le.mp h)
  · intro hi h0 hgt
    have hcond : ¬ (¬ isIntQ q ∨ q < 0) := by
      push_neg
      exact ⟨hi, h0⟩
    unfold validateLimit
    rw [if_neg hcond, if_pos hgt]
  · unfold validateOffset
    split_ifs with h1
    · constructor
      · intro hx
        cases hx
      · rintro ⟨hi, h0⟩
        rcases h1 with h | h
        · exact absurd hi h
        · exact absurd h0 (not_le.mpr h)
    · push_neg at h1
      exact ⟨fun _ => h1, fun _ => rfl⟩
  · intro h
    unfold validateOffset
    rw [if_pos]
    rcases not_and_or.mp h with h | h
    · exact Or.inl h
    · exact Or.inr (not_le.mp h)

/-- Witness for C7 at a negative limit, an over-ceiling limit and a
negative offset. -/
theorem validate_limit_offset_spec_witness :
    validateLimit (-1) = .error .INVALID_LIMIT ∧
    validateLimit 1000001 = .error .LIMIT_TOO_LARGE ∧
    validateOffset (-3) = .error .INVALID_OFFSET :=
  ⟨(validate_limit_offset_spec (-1)).2.1 (by decide),
   (validate_limit_offset_spec 1000001).2.2.1 (by decide) (by decide) (by decide),
   (validate_limit_offset_spec (-3)).2.2.2.2 (by decide)⟩

/-! ## Claim C8 -/

/-- C8 counterexample: for a parent type named `BlogPost` the guessed
foreign key is `blogpost_id` (plain `toLowerCase`), not the
`blog_post_id` that snake-casing the type name would give, and that is the
column used in the batched eager-load `IN` clause. -/
theorem guess_foreign_key_cex :
    guessForeignKey (str "BlogPost") = str "blogpost_id" ∧
    snakeCaseSpec (str "BlogPost") ++ str "_id" = str "blog_post_id" ∧
    guessForeignKey (str "BlogPost") ≠ snakeCaseSpec (str "BlogPost") ++ str "_id" ∧
    eagerLoadWhere (relationForeignKey none (str "BlogPost")) [Val.int 1] =
      WhereClause.inW (str "blogpost_id") [Val.int 1] .and false := by
  decide

/-- C8 amended: a HasMany/HasOne relation built without an explicit foreign
key uses `parentTypeName.toLowerCase() + "_id"` as the column of its batched
`WHERE foreign_key IN (...)` clause (this agrees with snake case only for
single-word type names). -/
theorem eager_load_foreign_key_lowercase (parentName : Str) (ids : List Val) :
    eagerLoadWhere (relationForeignKey none parentName) ids =
      WhereClause.inW (toLowerStr parentName ++ str "_id") ids .and false := rfl

/-! ## Structure of compiled SELECT statements -/

/-- Every member of a joined fragment list is an infix of the joined text. -/
theorem joinWith_mem_infix {sep x : Str} : ∀ {L : List Str}, x ∈ L →
    x <:+: joinWith sep L := by
  intro L
  induction L with
  | nil => intro h; cases h
  | cons y t ih =>
    intro h
    cases t with
    | nil =>
      rcases List.mem_singleton.mp h with rfl
      exact List.infix_refl x
    | cons z t2 =>
      rcases List.mem_cons.mp h with rfl | h2
      · show x <:+: x ++ sep ++ joinWith sep (z :: t2)
        rw [List.append_assoc]
        exact (List.prefix_append x _).isInfix
      · have h3 := ih h2
        exact h3.trans ((List.suffix_append (y ++ sep) (joinWith sep (z :: t2))).isInfix)

/-- Inversion of a successful `compileSelect`: names every intermediate
result and gives the exact shape of the compiled query. -/
theorem compileSelect_ok_inv {c : SelectComponents} {q : CompiledQuery}
    (h : compileSelect c = .ok q) :
    ∃ selPart wt jps wps bs ops lps fps,
      selectHead c = .ok selPart ∧
      wrap c.table = .ok wt ∧
      joinsParts c = .ok jps ∧
      wheresParts c = .ok (wps, bs) ∧
      ordersParts c = .ok ops ∧
      limitParts c = .ok lps ∧
      offsetParts c = .ok fps ∧
      q = { sql := joinWith (str " ")
              ([selPart, str "FROM " ++ wt] ++ jps ++ wps ++ ops ++ lps ++ fps),
            bindings := bs } := by
  unfold compileSelect at h
  rcases h1 : selectHead c with e | selPart <;> rw [h1] at h
  · cases h
  rcases h2 : wrap c.table with e | wt <;> rw [h2] at h
  · cases h
  rcases h3 : joinsParts c with e | jps <;> rw [h3] at h
  · cases h
  rcases h4 : wheresParts c with e | ⟨wps, bs⟩ <;> rw [h4] at h
  · cases h
  rcases h5 : ordersParts c with e | ops <;> rw [h5] at h
  · cases h
  rcases h6 : limitParts c with e | lps <;> rw [h6] at h
  · cases h
  rcases h7 : offsetParts c with e | fps <;> rw [h7] at h
  · cases h
  cases h
  exact ⟨selPart, wt, jps, wps, bs, ops, lps, fps, rfl, rfl, rfl, rfl, rfl, rfl, rfl, rfl⟩

/-- Inversion of a successful `compileWheres`. -/
theorem compileWheres_ok_inv {ws : List WhereClause} {s : Str} {bs : List Val}
    (h : compileWheres ws = .ok (s, bs)) :
    ∃ fs, compileWhereFrags ws true = .ok (fs, bs) ∧ s = joinWith (str " ") fs := by
  unfold compileWheres at h
  rcases h1 : compileWhereFrags ws true with e | ⟨fs, bs2⟩ <;> rw [h1] at h
  · cases h
  · cases h
    exact ⟨fs, rfl, rfl⟩

/-- Inversion of `wheresParts` when the clause list is non-empty. -/
theorem wheresParts_ok_inv {c : SelectComponents} {wps : List Str} {bs : List Val}
    (hne : c.wheres ≠ []) (h : wheresParts c = .ok (wps, bs)) :
    ∃ s, compileWheres c.wheres = .ok (s, bs) ∧ wps = [s] := by
  unfold wheresParts at h
  rw [if_neg hne] at h
  rcases h1 : compileWheres c.wheres with e | ⟨s, bs2⟩ <;> rw [h1] at h
  · cases h
  · cases h
    exact ⟨s, rfl, rfl⟩

/-- If a null-check clause occurs anywhere in a successfully compiled where
list, some compiled fragment contains the wrapped column followed by its
`IS [NOT] NULL` operator. -/
theorem compileWhereFrags_null_infix :
    ∀ {ws : List WhereClause} {fst : Bool} {fs : List Str} {bs : List Val}
      {c : Str} {bo : BoolOp} {nf : Bool},
      WhereClause.nullW c bo nf ∈ ws →
      compileWhereFrags ws fst = .ok (fs, bs) →
      ∃ w f, wrap c = .ok w ∧ f ∈ fs ∧
        (w ++ str " " ++ nullOpRender nf) <:+: f := by
  intro ws
  induction ws with
  | nil => intro _ _ _ _ _ _ hmem; cases hmem
  | cons w0 rest ih =>
    intro fst fs bs c bo nf hmem h
    unfold compileWhereFrags at h
    rcases hf0 : compileWhereFrag w0 (if fst then str "WHERE" else w0.boolean.render)
        with e | ⟨f0, bs0⟩ <;> rw [hf0] at h
    · cases h
    rcases hrest : compileWhereFrags rest false with e | ⟨fs1, bs1⟩ <;> rw [hrest] at h
    · cases h
    cases h
    rcases List.mem_cons.mp hmem with rfl | hmem2
    · simp only [compileWhereFrag] at hf0
      rcases hw : wrap c with e | wc <;> rw [hw] at hf0
      · cases hf0
      cases hf0
      refine ⟨wc, _, rfl, List.mem_cons_self _ _, ?_⟩
      have hsuf := (List.suffix_append
        ((if fst then str "WHERE" else (WhereClause.nullW c bo nf).boolean.render) ++ str " ")
        (wc ++ (str " " ++ nullOpRender nf))).isInfix
      simpa [List.append_assoc] using hsuf
    · obtain ⟨w, f, hw, hf, hinf⟩ := ih hmem2 hrest
      exact ⟨w, f, hw, List.mem_cons_of_mem _ hf, hinf⟩

/-! ## Claim C10 -/

/-- C10: `Builder.first()` permanently sets the builder's limit to 1 and
changes nothing else; afterwards the builder compiles with `LIMIT 1`. -/
theorem first_sets_limit_one (b : BuilderState) :
    builderFirst b = { b with limitValue := some 1 } ∧
    ∀ q, toSql (builderFirst b) = .ok q → (str "LIMIT 1") <:+: q.sql := by
  refine ⟨rfl, ?_⟩
  intro q hq
  obtain ⟨selPart, wt, jps, wps, bs, ops, lps, fps, h1, h2, h3, h4, h5, h6, h7, hq2⟩ :=
    compileSelect_ok_inv
      (c := { table := b.tableName, columns := b.columns,
              wheres := toSqlWheres (builderFirst b), joins := b.joins,
              orders := b.orders, limit := some 1, offset := b.offsetValue,
              distinct := b.distinctFlag }) hq
  have h8 : limitParts
      { table := b.tableName, columns := b.columns,
        wheres := toSqlWheres (builderFirst b), joins := b.joins,
        orders := b.orders, limit := some 1, offset := b.offsetValue,
        distinct := b.distinctFlag } = .ok [str "LIMIT " ++ qChars 1] := rfl
  have hl : lps = [str "LIMIT " ++ qChars 1] := (Except.ok.inj (h8.symm.trans h6)).symm
  have hone : (str "LIMIT 1") = str "LIMIT " ++ qChars 1 := rfl
  subst hq2
  refine joinWith_mem_infix ?_
  rw [hl, hone]
  simp

/-- Witness for C10: a plain `users` builder, once `first()` has run,
compiles to SQL ending in `LIMIT 1`. -/
theorem first_sets_limit_one_witness :
    (str "LIMIT 1") <:+: str "SELECT * FROM \"users\" LIMIT 1" :=
  (first_sets_limit_one { tableName := str "users" }).2
    { sql := str "SELECT * FROM \"users\" LIMIT 1", bindings := [] } (by decide)

/-! ## Claim C6 -/

/-- C6: for a soft-deleting builder with neither `withTrashed` nor
`onlyTrashed` in effect, the clause list handed to the grammar is the
caller's wheres with an `AND`-joined `IS NULL` check on the soft-delete
column appended at the end, and the compiled SQL contains the wrapped
column followed by ` IS NULL`; with `onlyTrashed` set the appended check
and the SQL fragment are `IS NOT NULL` instead. -/
theorem soft_delete_null_clause (b : BuilderState) (c : Str)
    (hc : b.softDeleteColumn = some c) :
    (b.includeTrashed = false → b.onlyTrashedFlag = false →
      toSqlWheres b = b.wheres ++ [WhereClause.nullW c .and false] ∧
      ∀ q, toSql b = .ok q →
        ∃ w, wrap c = .ok w ∧ (w ++ str " IS NULL") <:+: q.sql) ∧
    (b.onlyTrashedFlag = true →
      toSqlWheres b = b.wheres ++ [WhereClause.nullW c .and true] ∧
      ∀ q, toSql b = .ok q →
        ∃ w, wrap c = .ok w ∧ (w ++ str " IS NOT NULL") <:+: q.sql) := by
  have main : ∀ (nf : Bool), toSqlWheres b = b.wheres ++ [WhereClause.nullW c .and nf] →
      ∀ q, toSql b = .ok q →
        ∃ w, wrap c = .ok w ∧ (w ++ str " " ++ nullOpRender nf) <:+: q.sql := by
    intro nf hw q hq
    obtain ⟨selPart, wt, jps, wps, bs, ops, lps, fps, h1, h2, h3, h4, h5, h6, h7, hq2⟩ :=
      compileSelect_ok_inv
        (c := { table := b.tableName, columns := b.columns,
                wheres := toSqlWheres b, joins := b.joins,
                orders := b.orders, limit := b.limitValue, offset := b.offsetValue,
                distinct := b.distinctFlag }) hq
    have hne : toSqlWheres b ≠ [] := by
      rw [hw]
      simp
    obtain ⟨s, hcw, hwps⟩ := wheresParts_ok_inv hne h4
    obtain ⟨fs, hfr, hs⟩ := compileWheres_ok_inv hcw
    have hmem : WhereClause.nullW c .and nf ∈ toSqlWheres b := by
      rw [hw]
      simp
    obtain ⟨w, f, hwrap, hf, hinf⟩ := compileWhereFrags_null_infix hmem hfr
    refine ⟨w, hwrap, ?_⟩
    subst hq2
    have hsql : s <:+: joinWith (str " ")
        ([selPart, str "FROM " ++ wt] ++ jps ++ wps ++ ops ++ lps ++ fps) := by
      refine joinWith_mem_infix ?_
      rw [hwps]
      simp
    have hfs : f <:+: s := by
      rw [hs]
      exact joinWith_mem_infix hf
    exact (hinf.trans hfs).trans hsql
  constructor
  · intro hit hot
    have hw : toSqlWheres b = b.wheres ++ [WhereClause.nullW c .and false] := by
      simp [toSqlWheres, builderSoftDeleteWheres, hc, hit, hot]
    refine ⟨hw, ?_⟩
    intro q hq
    obtain ⟨w, hwrap, hinf⟩ := main false hw q hq
    refine ⟨w, hwrap, ?_⟩
    have heq : (w ++ str " IS NULL") = w ++ str " " ++ nullOpRender false := by
      rw [List.append_assoc]
      exact congrArg (w ++ ·) rfl
    rwa [heq]
  · intro hot
    have hw : toSqlWheres b = b.wheres ++ [WhereClause.nullW c .and true] := by
      simp [toSqlWheres, builderSoftDeleteWheres, hc, hot]
    refine ⟨hw, ?_⟩
    intro q hq
    obtain ⟨w, hwrap, hinf⟩ := main true hw q hq
    refine ⟨w, hwrap, ?_⟩
    have heq : (w ++ str " IS NOT NULL") = w ++ str " " ++ nullOpRender true := by
      rw [List.append_assoc]
      exact congrArg (w ++ ·) rfl
    rwa [heq]

/-- Witness for C6: a soft-deleting `users` query with one caller where
clause compiles to SQL containing `"deleted_at" IS NULL` after that
clause. -/
theorem soft_delete_null_clause_witness :
    toSqlWheres
        { tableName := str "users",
          wheres := [.basic (str "age") .gt (.int 18) .and false],
          softDeleteColumn := some (str "deleted_at") } =
      [.basic (str "age") .gt (.int 18) .and false] ++
        [WhereClause.nullW (str "deleted_at") .and false] ∧
    ∃ w, wrap (str "deleted_at") = .ok w ∧
      (w ++ str " IS NULL") <:+:
        str "SELECT * FROM \"users\" WHERE \"age\" > ? AND \"deleted_at\" IS NULL" := by
  have h := (soft_delete_null_clause
    { tableName := str "users",
      wheres := [.basic (str "age") .gt (.int 18) .and false],
      softDeleteColumn := some (str "deleted_at") } (str "deleted_at") rfl).1 rfl rfl
  exact ⟨h.1, h.2
    { sql := str "SELECT * FROM \"users\" WHERE \"age\" > ? AND \"deleted_at\" IS NULL",
      bindings := [.int 18] } (by decide)⟩

/-! ## Claim C1 -/

/-- C1 counterexample: a string that begins with a double quote is returned
by `wrap` verbatim without any sanitization — the sanitizer rejects it, yet
it flows into the SQL of `compileSelect` unchanged, quotes, spaces, comment
marker and all. -/
theorem wrap_quote_bypass_cex :
    wrap (str "\"; DROP TABLE users --") = .ok (str "\"; DROP TABLE users --") ∧
    sanitizeIdentifier (str "\"; DROP TABLE users --") =
      .error .INVALID_IDENTIFIER_PATTERN ∧
    compileSelect { table := str "users", columns := [str "\"; DROP TABLE users --"] } =
      .ok { sql := str "SELECT \"; DROP TABLE users -- FROM \"users\"", bindings := [] } ∧
    (str "\"; DROP TABLE users --") <:+:
      str "SELECT \"; DROP TABLE users -- FROM \"users\"" := by
  refine ⟨by decide, by decide, by decide, by decide⟩

/-- C1 amended: for every identifier that does not already begin with a
double quote, `wrap` propagates the sanitizer verbatim — it throws exactly
the sanitizer's error, and on success returns the sanitizer-accepted
identifier with each dot part quoted; strings beginning with `"` (assumed
"already wrapped") bypass the sanitizer entirely. -/
theorem wrap_sanitizes_unquoted (v : Str) (hv : v.head? ≠ some '"') :
    (∀ e, sanitizeIdentifier v = .error e → wrap v = .error e) ∧
    (∀ s, sanitizeIdentifier v = .ok s → wrap v = .ok (quoteIdent s)) := by
  unfold wrap
  by_cases hstar : v = ['*']
  · subst hstar
    rw [if_pos (Or.inl rfl)]
    refine ⟨fun e he => ?_, fun s hs => ?_⟩
    · cases he
    · cases hs
      rfl
  · rw [if_neg (by simp [hstar, hv])]
    constructor
    · intro e he
      rw [he]
    · intro s hs
      rw [hs]
      show (if '.' ∈ s then
              (Except.ok (joinWith ['.'] ((splitDot s).map wrapSingle)) : Except ErrCode Str)
            else .ok (wrapSingle s)) = .ok (quoteIdent s)
      unfold quoteIdent
      by_cases hdot : '.' ∈ s
      · rw [if_pos hdot, if_pos hdot]
      · rw [if_neg hdot, if_neg hdot]

/-- Witness for C1 at the ordinary identifier `users`. -/
theorem wrap_sanitizes_unquoted_witness :
    wrap (str "users") = .ok (quoteIdent (str "users")) :=
  (wrap_sanitizes_unquoted (str "users") (by decide)).2 (str "users") (by decide)

/-! ## Placeholder counting lemmas -/

/-- Counting distributes over concatenation. -/
theorem countQ_append (a b : Str) : countQ (a ++ b) = countQ a + countQ b := by
  unfold countQ
  exact List.count_append ..

/-- A string has no placeholder iff `?` does not occur in it. -/
theorem countQ_eq_zero {s : Str} : countQ s = 0 ↔ '?' ∉ s := by
  unfold countQ
  exact List.count_eq_zero

/-- A singleton over a non-placeholder character counts zero. -/
theorem countQ_singleton_ne {c : Char} (h : c ≠ '?') : countQ [c] = 0 := by
  rw [countQ_eq_zero]
  simp
  exact fun h2 => h h2.symm

/-- Counting a join is the sum of the fragment counts when the separator is
placeholder-free. -/
theorem countQ_joinWith {sep : Str} (hsep : countQ sep = 0) (L : List Str) :
    countQ (joinWith sep L) = (L.map countQ).sum := by
  induction L with
  | nil => rfl
  | cons x t ih =>
    cases t with
    | nil => simp [joinWith]
    | cons y t2 =>
      show countQ (x ++ sep ++ joinWith sep (y :: t2)) = _
      rw [countQ_append, countQ_append, hsep, ih]
      simp only [List.map_cons, List.sum_cons]
      omega

/-- A fragment list whose members all count zero sums to zero. -/
theorem countQ_map_sum_zero {L : List Str} (h : ∀ x ∈ L, countQ x = 0) :
    (L.map countQ).sum = 0 := by
  refine List.sum_eq_zero ?_
  intro y hy
  rw [List.mem_map] at hy
  obtain ⟨x, hx, rfl⟩ := hy
  exact h x hx

/-- Identifier-pattern strings carry no placeholder. -/
theorem identPattern_no_q {s : Str} (h : identPattern s = true) : countQ s = 0 := by
  rw [countQ_eq_zero]
  intro hmem
  cases s with
  | nil => cases hmem
  | cons c cs =>
    unfold identPattern at h
    rw [Bool.and_eq_true] at h
    rcases List.mem_cons.mp hmem with rfl | h2
    · exact absurd h.1 (by decide)
    · have h3 := List.all_eq_true.mp h.2 _ h2
      exact absurd h3 (by decide)

/-- Single sanitized identifiers carry no placeholder. -/
theorem sanitizeSingle_no_q {s r : Str} (h : sanitizeSingleIdentifier s = .ok r) :
    countQ r = 0 := by
  unfold sanitizeSingleIdentifier at h
  split_ifs at h with h1 h2
  · cases h
    rw [h1]
    decide
  · cases h
    exact identPattern_no_q h2

/-- All sanitized parts carry no placeholder. -/
theorem sanitizeParts_no_q : ∀ {ps qs : List Str},
    sanitizeParts ps = .ok qs → ∀ q ∈ qs, countQ q = 0 := by
  intro ps
  induction ps with
  | nil =>
    intro qs h q hq
    unfold sanitizeParts at h
    cases h
    cases hq
  | cons p ps ih =>
    intro qs h q hq
    unfold sanitizeParts at h
    rcases hp : sanitizeSingleIdentifier p with e | q2 <;> rw [hp] at h
    · cases h
    rcases hps : sanitizeParts ps with e | qs2 <;> rw [hps] at h
    · cases h
    cases h
    rcases List.mem_cons.mp hq with rfl | hq2
    · exact sanitizeSingle_no_q hp
    · exact ih hps q hq2

/-- Sanitizer outputs carry no placeholder. -/
theorem sanitizeIdentifier_no_q {v s : Str} (h : sanitizeIdentifier v = .ok s) :
    countQ s = 0 := by
  unfold sanitizeIdentifier at h
  by_cases h1 : v = [] ∨ jsTrim v = []
  · rw [if_pos h1] at h; cases h
  rw [if_neg h1] at h
  by_cases h2 : MAX_IDENTIFIER_LENGTH < (jsTrim v).length
  · rw [if_pos h2] at h; cases h
  rw [if_neg h2] at h
  by_cases h3 : '.' ∈ jsTrim v
  · rw [if_pos h3] at h
    by_cases h4 : 2 < (splitDot (jsTrim v)).length
    · rw [if_pos h4] at h; cases h
    rw [if_neg h4] at h
    rcases hps : sanitizeParts (splitDot (jsTrim v)) with e | qs <;> rw [hps] at h
    · cases h
    · cases h
      rw [countQ_joinWith (by decide)]
      exact countQ_map_sum_zero (sanitizeParts_no_q hps)
  · rw [if_neg h3] at h
    exact sanitizeSingle_no_q h

/-- Quoting a part leaves its placeholder count unchanged. -/
theorem wrapSingle_countQ (p : Str) : countQ (wrapSingle p) = countQ p := by
  unfold wrapSingle
  split_ifs with h
  · rfl
  · show countQ ('"' :: (p ++ ['"'])) = countQ p
    unfold countQ
    simp [List.count_cons, List.count_append]

/-- Characters of split fragments come from the split string. -/
theorem splitDot_chars : ∀ {l p : Str}, p ∈ splitDot l → ∀ a ∈ p, a ∈ l := by
  intro l
  induction l with
  | nil =>
    intro p hp a ha
    unfold splitDot at hp
    rcases List.mem_singleton.mp hp with rfl
    cases ha
  | cons c cs ih =>
    intro p hp a ha
    unfold splitDot at hp
    by_cases hc : c = '.'
    · rw [if_pos hc] at hp
      rcases List.mem_cons.mp hp with rfl | hp2
      · cases ha
      · exact List.mem_cons_of_mem _ (ih hp2 a ha)
    · rw [if_neg hc] at hp
      rcases hsp : splitDot cs with _ | ⟨p0, ps⟩
      · exact absurd hsp (splitDot_ne_nil cs)
      · rw [hsp] at hp
        rcases List.mem_cons.mp hp with rfl | hp2
        · rcases List.mem_cons.mp ha with rfl | ha2
          · exact List.mem_cons_self _ _
          · have hps : p0 ∈ splitDot cs := by
              rw [hsp]
              exact List.mem_cons_self _ _
            exact List.mem_cons_of_mem _ (ih hps a ha2)
        · have hps : p ∈ splitDot cs := by
            rw [hsp]
            exact List.mem_cons_of_mem _ hp2
          exact List.mem_cons_of_mem _ (ih hps a ha)

/-- A wrapped identifier carries no placeholder unless it took the
already-quoted bypass. -/
theorem wrap_no_q {v w : Str} (h : wrap v = .ok w) (hv : noLeadQuote v) : countQ w = 0 := by
  unfold wrap at h
  by_cases hb : v = ['*'] ∨ v.head? = some '"'
  · rw [if_pos hb] at h
    cases h
    rcases hb with rfl | hq
    · decide
    · exact absurd hq hv
  · rw [if_neg hb] at h
    rcases hs : sanitizeIdentifier v with e | s <;> rw [hs] at h
    · cases h
    have hs0 := sanitizeIdentifier_no_q hs
    have h2 : (if '.' ∈ s then
          (Except.ok (joinWith ['.'] ((splitDot s).map wrapSingle)) : Except ErrCode Str)
        else .ok (wrapSingle s)) = .ok w := h
    by_cases hdot : '.' ∈ s
    · rw [if_pos hdot] at h2
      cases h2
      rw [countQ_joinWith (by decide)]
      refine countQ_map_sum_zero ?_
      intro x hx
      rw [List.mem_map] at hx
      obtain ⟨p, hp, rfl⟩ := hx
      rw [wrapSingle_countQ, countQ_eq_zero]
      intro hmem
      exact (countQ_eq_zero.mp hs0) (splitDot_chars hp _ hmem)
    · rw [if_neg hdot] at h2
      cases h2
      rw [wrapSingle_countQ]
      exact hs0

/-- Logical-operator renderings carry no placeholder. -/
theorem boolOp_render_no_q (bo : BoolOp) : countQ bo.render = 0 := by
  cases bo <;> decide

/-- Comparison-operator renderings carry no placeholder. -/
theorem compOp_render_no_q (op : CompOp) : countQ op.render = 0 := by
  cases op <;> decide

/-- Join-type renderings carry no placeholder. -/
theorem joinType_render_no_q (t : JoinType) : countQ t.render = 0 := by
  cases t <;> decide

/-- Null-operator renderings carry no placeholder. -/
theorem nullOp_render_no_q (nf : Bool) : countQ (nullOpRender nf) = 0 := by
  cases nf <;> decide

/-- Sanitized directions carry no placeholder. -/
theorem direction_no_q {d r : Str} (h : sanitizeDirection d = .ok r) : countQ r = 0 := by
  unfold sanitizeDirection at h
  split_ifs at h with h1
  cases h
  rcases h1 with h1 | h1 <;> rw [h1] <;> decide

/-- Digits are not placeholders. -/
theorem digitOf_ne_q (n : Nat) : digitOf n ≠ '?' := by
  unfold digitOf
  split <;> decide

/-- Rendered numbers carry no placeholder. -/
theorem natCharsAux_no_q : ∀ (fuel n : Nat), countQ (natCharsAux fuel n) = 0 := by
  intro fuel
  induction fuel with
  | zero => intro n; rfl
  | succ f ih =>
    intro n
    unfold natCharsAux
    split_ifs with h
    · exact countQ_singleton_ne (digitOf_ne_q n)
    · rw [countQ_append, ih (n / 10), countQ_singleton_ne (digitOf_ne_q n)]

/-- Rendered limits/offsets carry no placeholder. -/
theorem qChars_no_q (q : Rat) : countQ (qChars q) = 0 :=
  natCharsAux_no_q _ _

/-- The optional `NOT ` marker carries no placeholder. -/
theorem countQ_not_ite (nf : Bool) : countQ (if nf then str "NOT " else []) = 0 := by
  cases nf <;> decide

/-- The placeholder list of an `IN (...)` clause counts one per value. -/
theorem countQ_placeholder_list (vals : List Val) :
    countQ (joinWith (str ", ") (vals.map fun _ => placeholder)) = vals.length := by
  rw [countQ_joinWith (by decide)]
  induction vals with
  | nil => rfl
  | cons v t ih =>
    simp only [List.map_cons, List.sum_cons, List.length_cons]
    rw [ih, show countQ placeholder = 1 from rfl]
    omega

/-- Each compiled where fragment carries exactly one placeholder per
binding it appends, given a placeholder-free prefix and the per-clause side
condition. -/
theorem compileWhereFrag_count {w : WhereClause} {pfx f : Str} {bs : List Val}
    (hok : compileWhereFrag w pfx = .ok (f, bs)) (hw : whereOkC w)
    (hpfx : countQ pfx = 0) : countQ f = bs.length := by
  cases w with
  | basic col op v bo nf =>
    simp only [compileWhereFrag] at hok
    rcases hwr : wrap col with e | wc <;> rw [hwr] at hok
    · cases hok
    cases hok
    have hwc : countQ wc = 0 := wrap_no_q hwr hw
    simp only [countQ_append, hpfx, hwc, compOp_render_no_q, countQ_not_ite,
      countQ_eq_zero.mpr (show '?' ∉ str " " by decide),
      show countQ placeholder = 1 from rfl, List.length_cons, List.length_nil]
  | inW col vals bo nf =>
    simp only [compileWhereFrag] at hok
    rcases hwr : wrap col with e | wc <;> rw [hwr] at hok
    · cases hok
    cases hok
    have hwc : countQ wc = 0 := wrap_no_q hwr hw
    simp only [countQ_append, hpfx, hwc, countQ_not_ite, countQ_placeholder_list,
      countQ_eq_zero.mpr (show '?' ∉ str " " by decide),
      countQ_eq_zero.mpr (show '?' ∉ str "IN (" by decide),
      countQ_eq_zero.mpr (show '?' ∉ str ")" by decide)]
    omega
  | nullW col bo nf =>
    simp only [compileWhereFrag] at hok
    rcases hwr : wrap col with e | wc <;> rw [hwr] at hok
    · cases hok
    cases hok
    have hwc : countQ wc = 0 := wrap_no_q hwr hw
    simp only [countQ_append, hpfx, hwc, nullOp_render_no_q,
      countQ_eq_zero.mpr (show '?' ∉ str " " by decide), List.length_nil]
  | between col lo hi bo nf =>
    simp only [compileWhereFrag] at hok
    rcases hwr : wrap col with e | wc <;> rw [hwr] at hok
    · cases hok
    cases hok
    have hwc : countQ wc = 0 := wrap_no_q hwr hw
    simp only [countQ_append, hpfx, hwc, countQ_not_ite,
      countQ_eq_zero.mpr (show '?' ∉ str " " by decide),
      countQ_eq_zero.mpr (show '?' ∉ str "BETWEEN " by decide),
      countQ_eq_zero.mpr (show '?' ∉ str " AND " by decide),
      show countQ placeholder = 1 from rfl, List.length_cons, List.length_nil]
  | raw frag vals bo =>
    simp only [compileWhereFrag] at hok
    cases hok
    have hfrag : countQ frag = bs.length := hw
    simp only [countQ_append, hpfx, hfrag,
      countQ_eq_zero.mpr (show '?' ∉ str " " by decide)]
    omega
  | existsW bo =>
    simp only [compileWhereFrag] at hok
    cases hok
    rfl

/-- Summed fragment counts equal the number of accumulated bindings. -/
theorem compileWhereFrags_count : ∀ {ws : List WhereClause} {fst : Bool}
    {fs : List Str} {bs : List Val},
    (∀ w ∈ ws, whereOkC w) → compileWhereFrags ws fst = .ok (fs, bs) →
    (fs.map countQ).sum = bs.length := by
  intro ws
  induction ws with
  | nil =>
    intro fst fs bs _ h
    unfold compileWhereFrags at h
    cases h
    rfl
  | cons w0 rest ih =>
    intro fst fs bs hws h
    unfold compileWhereFrags at h
    rcases hf0 : compileWhereFrag w0 (if fst then str "WHERE" else w0.boolean.render)
        with e | ⟨f0, bs0⟩ <;> rw [hf0] at h
    · cases h
    rcases hr : compileWhereFrags rest false with e | ⟨fs1, bs1⟩ <;> rw [hr] at h
    · cases h
    cases h
    have hp : countQ (if fst then str "WHERE" else w0.boolean.render) = 0 := by
      cases fst
      · simpa using boolOp_render_no_q w0.boolean
      · show countQ (str "WHERE") = 0
        decide
    have hc0 := compileWhereFrag_count hf0 (hws w0 (List.mem_cons_self _ _)) hp
    have hrest := ih (fun w hw => hws w (List.mem_cons_of_mem _ hw)) hr
    simp [List.map_cons, List.sum_cons, hc0, hrest, List.length_append]

/-- The full WHERE text counts one placeholder per binding. -/
theorem compileWheres_count {ws : List WhereClause} {s : Str} {bs : List Val}
    (hws : ∀ w ∈ ws, whereOkC w) (h : compileWheres ws = .ok (s, bs)) :
    countQ s = bs.length := by
  obtain ⟨fs, hf, hs⟩ := compileWheres_ok_inv h
  subst hs
  rw [countQ_joinWith (by decide)]
  exact compileWhereFrags_count hws hf

/-- Order fragments carry no placeholder. -/
theorem compileOrderFrags_no_q : ∀ {os : List OrderByClause} {fs : List Str},
    (∀ o ∈ os, noLeadQuote o.column) → compileOrderFrags os = .ok fs →
    ∀ f ∈ fs, countQ f = 0 := by
  intro os
  induction os with
  | nil =>
    intro fs _ h f hf
    unfold compileOrderFrags at h
    cases h
    cases hf
  | cons o os ih =>
    intro fs hos h f hf
    unfold compileOrderFrags at h
    rcases hd : sanitizeDirection o.direction with e | d <;> rw [hd] at h
    · cases h
    rcases hwr : wrap o.column with e | wc <;> rw [hwr] at h
    · cases h
    rcases hrest : compileOrderFrags os with e | fs2 <;> rw [hrest] at h
    · cases h
    cases h
    rcases List.mem_cons.mp hf with rfl | hf2
    · rw [countQ_append, countQ_append,
        wrap_no_q hwr (hos o (List.mem_cons_self _ _)), direction_no_q hd]
      decide
    · exact ih (fun o2 ho2 => hos o2 (List.mem_cons_of_mem _ ho2)) hrest f hf2

/-- The ORDER BY text carries no placeholder. -/
theorem compileOrders_no_q {os : List OrderByClause} {s : Str}
    (hos : ∀ o ∈ os, noLeadQuote o.column) (h : compileOrders os = .ok s) :
    countQ s = 0 := by
  unfold compileOrders at h
  rcases hf : compileOrderFrags os with e | fs <;> rw [hf] at h
  · cases h
  cases h
  rw [countQ_append, countQ_joinWith (by decide),
    countQ_map_sum_zero (compileOrderFrags_no_q hos hf)]
  decide

/-- Join fragments carry no placeholder. -/
theorem compileJoinFrags_no_q : ∀ {js : List JoinClause} {fs : List Str},
    (∀ j ∈ js, noLeadQuote j.table ∧ noLeadQuote j.first ∧ noLeadQuote j.second) →
    compileJoinFrags js = .ok fs → ∀ f ∈ fs, countQ f = 0 := by
  intro js
  induction js with
  | nil =>
    intro fs _ h f hf
    unfold compileJoinFrags at h
    cases h
    cases hf
  | cons j js ih =>
    intro fs hjs h f hf
    unfold compileJoinFrags at h
    rcases ht : wrap j.table with e | wt <;> rw [ht] at h
    · cases h
    rcases h1 : wrap j.first with e | wf <;> rw [h1] at h
    · cases h
    rcases h2 : wrap j.second with e | ws2 <;> rw [h2] at h
    · cases h
    rcases hrest : compileJoinFrags js with e | fs2 <;> rw [hrest] at h
    · cases h
    cases h
    rcases List.mem_cons.mp hf with rfl | hf2
    · obtain ⟨hjt, hjf, hjs2⟩ := hjs j (List.mem_cons_self _ _)
      simp [countQ_append, wrap_no_q ht hjt, wrap_no_q h1 hjf, wrap_no_q h2 hjs2,
        joinType_render_no_q, compOp_render_no_q,
        countQ_eq_zero.mpr (by decide : '?' ∉ str " JOIN "),
        countQ_eq_zero.mpr (by decide : '?' ∉ str " ON "),
        countQ_eq_zero.mpr (by decide : '?' ∉ str " ")]
    · exact ih (fun j2 hj2 => hjs j2 (List.mem_cons_of_mem _ hj2)) hrest f hf2

/-- The JOIN text carries no placeholder. -/
theorem compileJoins_no_q {js : List JoinClause} {s : Str}
    (hjs : ∀ j ∈ js, noLeadQuote j.table ∧ noLeadQuote j.first ∧ noLeadQuote j.second)
    (h : compileJoins js = .ok s) : countQ s = 0 := by
  unfold compileJoins at h
  rcases hf : compileJoinFrags js with e | fs <;> rw [hf] at h
  · cases h
  cases h
  rw [countQ_joinWith (by decide), countQ_map_sum_zero (compileJoinFrags_no_q hjs hf)]

/-- Wrapped column lists carry no placeholder. -/
theorem wrapAll_no_q : ∀ {cols ws : List Str}, (∀ c ∈ cols, noLeadQuote c) →
    wrapAll cols = .ok ws → ∀ w ∈ ws, countQ w = 0 := by
  intro cols
  induction cols with
  | nil =>
    intro ws _ h w hw
    unfold wrapAll at h
    cases h
    cases hw
  | cons c cs ih =>
    intro ws hcs h w hw
    unfold wrapAll at h
    rcases hwr : wrap c with e | wc <;> rw [hwr] at h
    · cases h
    rcases hrest : wrapAll cs with e | ws2 <;> rw [hrest] at h
    · cases h
    cases h
    rcases List.mem_cons.mp hw with rfl | hw2
    · exact wrap_no_q hwr (hcs c (List.mem_cons_self _ _))
    · exact ih (fun c2 hc2 => hcs c2 (List.mem_cons_of_mem _ hc2)) hrest w hw2

/-- The SELECT head carries no placeholder. -/
theorem selectHead_no_q {c : SelectComponents} {selPart : Str}
    (hcols : ∀ col ∈ c.columns, noLeadQuote col) (h : selectHead c = .ok selPart) :
    countQ selPart = 0 := by
  unfold selectHead at h
  by_cases hc : c.columns = []
  · rw [if_pos hc] at h
    cases h
    rcases hd : c.distinct <;> decide
  · rw [if_neg hc] at h
    rcases hws : wrapAll c.columns with e | ws <;> rw [hws] at h
    · cases h
    cases h
    rw [countQ_append, countQ_append, countQ_joinWith (by decide),
      countQ_map_sum_zero (wrapAll_no_q hcols hws)]
    rcases hd : c.distinct <;> decide

/-- The LIMIT part carries no placeholder. -/
theorem limitParts_no_q {c : SelectComponents} {lps : List Str}
    (h : limitParts c = .ok lps) : ∀ x ∈ lps, countQ x = 0 := by
  unfold limitParts at h
  rcases hl : c.limit with _ | q <;> rw [hl] at h
  · cases h
    intro x hx
    cases hx
  · have h2 : (match validateLimit q with
        | Except.error e => (Except.error e : Except ErrCode (List Str))
        | Except.ok v => Except.ok [str "LIMIT " ++ qChars v]) = .ok lps := h
    rcases hv : validateLimit q with e | v <;> rw [hv] at h2
    · cases h2
    cases h2
    intro x hx
    rcases List.mem_singleton.mp hx with rfl
    rw [countQ_append, qChars_no_q]
    decide

/-- The OFFSET part carries no placeholder. -/
theorem offsetParts_no_q {c : SelectComponents} {fps : List Str}
    (h : offsetParts c = .ok fps) : ∀ x ∈ fps, countQ x = 0 := by
  unfold offsetParts at h
  rcases hl : c.offset with _ | q <;> rw [hl] at h
  · cases h
    intro x hx
    cases hx
  · have h2 : (match validateOffset q with
        | Except.error e => (Except.error e : Except ErrCode (List Str))
        | Except.ok v => Except.ok [str "OFFSET " ++ qChars v]) = .ok fps := h
    rcases hv : validateOffset q with e | v <;> rw [hv] at h2
    · cases h2
    cases h2
    intro x hx
    rcases List.mem_singleton.mp hx with rfl
    rw [countQ_append, qChars_no_q]
    decide

/-- The JOIN parts carry no placeholder. -/
theorem joinsParts_no_q {c : SelectComponents} {jps : List Str}
    (hjs : ∀ j ∈ c.joins, noLeadQuote j.table ∧ noLeadQuote j.first ∧ noLeadQuote j.second)
    (h : joinsParts c = .ok jps) : ∀ x ∈ jps, countQ x = 0 := by
  unfold joinsParts at h
  split_ifs at h with he
  · cases h
    intro x hx
    cases hx
  · rcases hj : compileJoins c.joins with e | s <;> rw [hj] at h
    · cases h
    cases h
    intro x hx
    rcases List.mem_singleton.mp hx with rfl
    exact compileJoins_no_q hjs hj

/-- The ORDER BY parts carry no placeholder. -/
theorem ordersParts_no_q {c : SelectComponents} {ops : List Str}
    (hos : ∀ o ∈ c.orders, noLeadQuote o.column) (h : ordersParts c = .ok ops) :
    ∀ x ∈ ops, countQ x = 0 := by
  unfold ordersParts at h
  split_ifs at h with he
  · cases h
    intro x hx
    cases hx
  · rcases ho : compileOrders c.orders with e | s <;> rw [ho] at h
    · cases h
    cases h
    intro x hx
    rcases List.mem_singleton.mp hx with rfl
    exact compileOrders_no_q hos ho

/-- The WHERE parts count one placeholder per binding. -/
theorem wheresParts_count {c : SelectComponents} {wps : List Str} {bs : List Val}
    (hws : ∀ w ∈ c.wheres, whereOkC w) (h : wheresParts c = .ok (wps, bs)) :
    (wps.map countQ).sum = bs.length := by
  unfold wheresParts at h
  split_ifs at h with he
  · cases h
    rfl
  · rcases hcw : compileWheres c.wheres with e | ⟨s, bs2⟩ <;> rw [hcw] at h
    · cases h
    cases h
    simp [compileWheres_count hws hcw]

/-! ## Claim C4 -/

/-- C4 counterexample: a raw where clause whose fragment contains a `?` but
supplies no bindings — and likewise a quote-bypass column carrying a `?` —
produce SQL with one placeholder and an empty binding list. -/
theorem placeholder_parity_cex :
    compileSelect { table := str "users", wheres := [.raw (str "age > ?") [] .and] } =
      .ok { sql := str "SELECT * FROM \"users\" WHERE age > ?", bindings := [] } ∧
    countQ (str "SELECT * FROM \"users\" WHERE age > ?") = 1 ∧
    compileSelect { table := str "users", columns := [str "\"a?"] } =
      .ok { sql := str "SELECT \"a? FROM \"users\"", bindings := [] } ∧
    countQ (str "SELECT \"a? FROM \"users\"") = 1 := by
  refine ⟨by decide, by decide, by decide, by decide⟩

/-- C4 amended: for every query state the compiler accepts in which no
identifier takes the already-quoted bypass and every raw where fragment
carries exactly one `?` per supplied binding (in particular for any mix of
basic, in, null and between clauses), the number of `?` placeholders in the
compiled SQL equals `bindings.length`, with bindings accumulated in
left-to-right emission order. -/
theorem compile_select_placeholder_parity (c : SelectComponents) (q : CompiledQuery)
    (hok : compileSelect c = .ok q) (hc : componentsOkC c) :
    countQ q.sql = q.bindings.length := by
  obtain ⟨hct, hccols, hcjoins, hcorders, hcwheres⟩ := hc
  obtain ⟨selPart, wt, jps, wps, bs, ops, lps, fps, h1, h2, h3, h4, h5, h6, h7, hq⟩ :=
    compileSelect_ok_inv hok
  subst hq
  show countQ (joinWith (str " ")
      ([selPart, str "FROM " ++ wt] ++ jps ++ wps ++ ops ++ lps ++ fps)) = bs.length
  rw [countQ_joinWith (by decide)]
  have hsel := selectHead_no_q hccols h1
  have hfrom : countQ (str "FROM " ++ wt) = 0 := by
    rw [countQ_append, wrap_no_q h2 hct]
    decide
  have hjps := countQ_map_sum_zero (joinsParts_no_q hcjoins h3)
  have hwps := wheresParts_count hcwheres h4
  have hops := countQ_map_sum_zero (ordersParts_no_q hcorders h5)
  have hlps := countQ_map_sum_zero (limitParts_no_q h6)
  have hfps := countQ_map_sum_zero (offsetParts_no_q h7)
  simp only [List.map_append, List.sum_append, List.map_cons, List.sum_cons,
    List.map_nil, List.sum_nil]
  rw [hsel, hfrom] at *
  omega

/-! ## Claim C2 -/

set_option maxRecDepth 40000 in
/-- C2 (code bug): the compiler returns the cached object itself.  Compiling
`SELECT * FROM users WHERE age > 18`, mutating the returned bindings array
in place, then compiling the identical query again, the second call hands
back a reference to the same bindings array, which now reads `[999]`
instead of `[18]` — caller mutation corrupted the cache. -/
theorem qc_cache_hit_aliasing :
    ∃ r1 st1,
      qcCompileSelect qcEmpty
        { table := str "users", wheres := [.basic (str "age") .gt (.int 18) .and false] }
        none = .ok (r1, st1) ∧
      heapAt st1 r1.bref = [Val.int 18] ∧
      ∃ r2 st3,
        qcCompileSelect (heapWrite st1 r1.bref [Val.int 999])
          { table := str "users", wheres := [.basic (str "age") .gt (.int 18) .and false] }
          none = .ok (r2, st3) ∧
        r2.bref = r1.bref ∧
        heapAt st3 r2.bref = [Val.int 999] ∧
        heapAt st3 r2.bref ≠ [Val.int 18] := by
  refine ⟨_, _, rfl, by decide, _, _, rfl, rfl, by decide, by decide⟩

/-! ## Claim C3 -/

/-- Sanitizing a pump request is the identity (its identifiers are clean). -/
theorem sanitizeComponents_pump (i : Int) :
    sanitizeComponents (pumpComps i) = .ok (pumpComps i) := rfl

/-- One compile of a pump request: a hit returns the cached reference and
leaves the state alone, a miss appends exactly one entry. -/
theorem qcCompileSelect_pump (st : QCState) (i : Int) :
    qcCompileSelect st (pumpComps i) none =
      match qcLookup st (pkey i) with
      | some r => .ok (r, st)
      | none =>
        .ok (pumpRef st,
          { entries := st.entries ++ [(pkey i, pumpRef st)],
            heap := st.heap ++ [[Val.int i]] }) := rfl

/-- The state effect of one pump request. -/
theorem qcStep_pump (st : QCState) (i : Int) :
    qcStep st (pumpReq i) =
      match qcLookup st (pkey i) with
      | some _ => st
      | none =>
        { entries := st.entries ++ [(pkey i, pumpRef st)],
          heap := st.heap ++ [[Val.int i]] } := by
  show (match qcCompileSelect st (pumpComps i) none with
        | .ok (_, st2) => st2
        | .error _ => st) = _
  rw [qcCompileSelect_pump]
  rcases qcLookup st (pkey i) with _ | r <;> rfl

/-- A key misses the cache exactly when it is not among the stored keys. -/
theorem qcLookup_none_iff {st : QCState} {k : QCKey} :
    qcLookup st k = none ↔ k ∉ qcKeys st := by
  unfold qcLookup qcKeys
  simp only [Option.map_eq_none', List.find?_eq_none, decide_eq_true_eq, List.mem_map]
  constructor
  · rintro h ⟨e, he, rfl⟩
    exact h e he rfl
  · intro h e he hek
    exact h ⟨e, he, hek⟩

/-- Pump keys are pairwise distinct. -/
theorem pkey_inj {i j : Int} (h : pkey i = pkey j) : i = j := by
  simpa [pkey, pumpComps] using h

/-- Running distinct fresh pump requests grows the cache by one entry each,
with nothing ever evicted. -/
theorem qcRun_pump_size : ∀ (l : List Int) (st : QCState),
    l.Nodup → (∀ i ∈ l, pkey i ∉ qcKeys st) →
    qcSize (qcRun st (l.map pumpReq)) = qcSize st + l.length := by
  intro l
  induction l with
  | nil =>
    intro st _ _
    simp [qcRun, qcSize]
  | cons i t ih =>
    intro st hnd hmem
    show qcSize (qcRun (qcStep st (pumpReq i)) (t.map pumpReq)) = _
    have hlk : qcLookup st (pkey i) = none :=
      qcLookup_none_iff.mpr (hmem i (List.mem_cons_self _ _))
    have hstep : qcStep st (pumpReq i) =
        { entries := st.entries ++ [(pkey i, pumpRef st)],
          heap := st.heap ++ [[Val.int i]] } := by
      rw [qcStep_pump, hlk]
    rw [hstep]
    have hmem2 : ∀ j ∈ t, pkey j ∉ qcKeys
        { entries := st.entries ++ [(pkey i, pumpRef st)],
          heap := st.heap ++ [[Val.int i]] } := by
      intro j hj
      unfold qcKeys
      rw [List.map_append, List.mem_append]
      rintro (h | h)
      · exact hmem j (List.mem_cons_of_mem _ hj) h
      · have hji : pkey j = pkey i := by simpa using h
        have hij : j = i := pkey_inj hji
        exact (List.nodup_cons.mp hnd).1 (hij ▸ hj)
    rw [ih _ ((List.nodup_cons.mp hnd).2) hmem2]
    simp [qcSize, List.length_append]
    omega

/-- C3 counterexample: no fixed capacity bounds the cache
`QueryCompiler.compileSelect` actually uses: for every candidate capacity
there is a request sequence after which the cache holds more entries. -/
theorem qc_cache_not_bounded_cex :
    ¬ ∃ cap : Nat, ∀ rs : List (SelectComponents × Option SoftDeleteConfig),
        qcSize (qcRun qcEmpty rs) ≤ cap := by
  rintro ⟨cap, hcap⟩
  have hnd : (intRange (cap + 1)).Nodup :=
    List.Nodup.map (fun a b h => Int.ofNat.inj h) (List.nodup_range _)
  have hfresh : ∀ i ∈ intRange (cap + 1), pkey i ∉ qcKeys qcEmpty := by
    intro i _
    simp [qcKeys, qcEmpty]
  have hle := hcap ((intRange (cap + 1)).map pumpReq)
  rw [qcRun_pump_size _ qcEmpty hnd hfresh] at hle
  have hlen : (intRange (cap + 1)).length = cap + 1 := by
    simp [intRange]
  have hz : qcSize qcEmpty = 0 := rfl
  omega

/-- Every successful compile either leaves the cache alone or appends. -/
theorem qcCompileSelect_keys {st : QCState} {c : SelectComponents}
    {sd : Option SoftDeleteConfig} {ref : CompiledRef} {st2 : QCState}
    (h : qcCompileSelect st c sd = .ok (ref, st2)) :
    ∃ tail, st2.entries = st.entries ++ tail := by
  unfold qcCompileSelect at h
  rcases h1 : sanitizeComponents c with e | sc <;> rw [h1] at h
  · cases h
  replace h : (match sanitizeSoftDeleteOpt sd with
      | .error e => (.error e : Except ErrCode (CompiledRef × QCState))
      | .ok ssd => qcWithKey st sc ssd) = .ok (ref, st2) := h
  rcases h2 : sanitizeSoftDeleteOpt sd with e | ssd <;> rw [h2] at h
  · cases h
  replace h : qcWithKey st sc ssd = .ok (ref, st2) := h
  unfold qcWithKey at h
  rcases h3 : qcLookup st (sc, ssd) with _ | r <;> rw [h3] at h
  · replace h : qcMissCompile st sc ssd = .ok (ref, st2) := h
    unfold qcMissCompile at h
    rcases h4 : compileSelect { sc with wheres := sc.wheres ++ softDeleteExtraWheres ssd }
        with e | q <;> rw [h4] at h
    · cases h
    cases h
    exact ⟨_, rfl⟩
  · cases h
    exact ⟨[], (List.append_nil _).symm⟩

/-- C3 amended: the cache `compileSelect` actually uses is an unbounded
insert-only `Map` — a stored key is never evicted by any later request, and
the cache can be driven to any size whatsoever; the bounded LRU in the
repository is never consulted by `compileSelect`. -/
theorem qc_cache_unbounded_map :
    (∀ (st : QCState) (r : SelectComponents × Option SoftDeleteConfig) (k : QCKey),
        k ∈ qcKeys st → k ∈ qcKeys (qcStep st r)) ∧
    (∀ n : Nat, ∃ rs : List (SelectComponents × Option SoftDeleteConfig),
        qcSize (qcRun qcEmpty rs) = n) := by
  constructor
  · intro st r k hk
    unfold qcStep
    rcases hc : qcCompileSelect st r.1 r.2 with e | ⟨ref, st2⟩
    · exact hk
    · obtain ⟨tail, htail⟩ := qcCompileSelect_keys hc
      show k ∈ st2.entries.map Prod.fst
      rw [htail, List.map_append]
      exact List.mem_append_left _ hk
  · intro n
    refine ⟨(intRange n).map pumpReq, ?_⟩
    have hnd : (intRange n).Nodup :=
      List.Nodup.map (fun a b h => Int.ofNat.inj h) (List.nodup_range _)
    have hfresh : ∀ i ∈ intRange n, pkey i ∉ qcKeys qcEmpty := by
      intro i _
      simp [qcKeys, qcEmpty]
    rw [qcRun_pump_size _ qcEmpty hnd hfresh]
    simp [qcSize, qcEmpty, intRange]

/-- Witness for C3: a stored key survives a later (different) request. -/
theorem qc_cache_unbounded_map_witness :
    pkey 0 ∈ qcKeys (qcStep
      { entries := [(pkey 0, { sql := pumpSql, bref := 0 })], heap := [[Val.int 0]] }
      (pumpReq 1)) :=
  qc_cache_unbounded_map.1
    { entries := [(pkey 0, { sql := pumpSql, bref := 0 })], heap := [[Val.int 0]] }
    (pumpReq 1) (pkey 0) (by decide)

/-! ## Claim C5 -/

/-- C5 (code bug): on a pool of capacity 1, two `acquire()` calls that both
run their synchronous part before either factory `create()` resolves each
pass the `inUse.size + available.length < max` check, so after both creates
resolve the pool has two resources in use — more than `max`. -/
theorem pool_overcommit_on_concurrent_acquires :
    ({ maxR := 1 } : PoolState).maxR = 1 ∧
    (poolRun { maxR := 1 }
      [.startAcquire, .startAcquire, .finishCreate, .finishCreate]).inUse.length = 2 := by
  exact ⟨rfl, by decide⟩

set_option maxRecDepth 40000 in
/-- Witness for C4 on a heterogeneous query mixing basic, in, null, between
and a balanced raw clause under DISTINCT, ORDER BY, LIMIT and OFFSET. -/
theorem compile_select_placeholder_parity_witness :
    countQ (str "SELECT DISTINCT \"id\", \"name\" FROM \"users\" WHERE \"age\" > ? AND \"id\" IN (?, ?) AND \"deleted_at\" IS NULL AND \"age\" BETWEEN ? AND ? OR score > ? ORDER BY \"name\" ASC LIMIT 10 OFFSET 5") =
      ([Val.int 18, Val.int 1, Val.int 2, Val.int 0, Val.int 99, Val.int 7] : List Val).length :=
  compile_select_placeholder_parity
    { table := str "users"
      columns := [str "id", str "name"]
      wheres := [.basic (str "age") .gt (.int 18) .and false,
                 .inW (str "id") [.int 1, .int 2] .and false,
                 .nullW (str "deleted_at") .and false,
                 .between (str "age") (.int 0) (.int 99) .and false,
                 .raw (str "score > ?") [.int 7] .or]
      orders := [{ column := str "name", direction := str "asc" }]
      limit := some 10
      offset := some 5
      distinct := true }
    { sql := str "SELECT DISTINCT \"id\", \"name\" FROM \"users\" WHERE \"age\" > ? AND \"id\" IN (?, ?) AND \"deleted_at\" IS NULL AND \"age\" BETWEEN ? AND ? OR score > ? ORDER BY \"name\" ASC LIMIT 10 OFFSET 5"
      bindings := [.int 18, .int 1, .int 2, .int 0, .int 99, .int 7] }
    (by decide) (by decide)

end Velvet
